import Mathlib

/-!
# Verification development for the malgo speaker backend of beep

Shallow embedding of `speaker/speaker_malgo.go`:

* the playback bridge (`update`, the `onSamples` data callback, `Close`);
* the capture adapter (`onCapSamples`, `deviceCapture.Stream`).

Conventions.  A Go `[]byte` is a `List Byte` with `Byte = Fin 256`.  Go machine
integers are `Nat`/`Int` with the wrap-around written out.  A Go `float64` is an
`F64`: NaN, the two infinities, or a finite value stored as the integer number
of quanta of `2^(-1074)` (the smallest positive double), so that every finite
double has exactly one representation and arithmetic is integer arithmetic
followed by IEEE-754 round-to-nearest-even.  The sign of zero is not recorded:
no operation of this file observes it.  A run-time panic is `none`.
-/

namespace Beep

/-! ## Bytes and 16-bit integers -/

/-- One Go `byte`. -/
abbrev Byte := Fin 256

/-- Wrap-around of Go `int16` arithmetic: the representative of `x` modulo `2^16`
in `[-32768, 32767]`. -/
def wrapInt16 (x : Int) : Int := (x + 32768) % 65536 - 32768

/-- Go conversion `byte(v)` of a signed integer: the low eight bits. -/
def toByte (x : Int) : Byte := ⟨(x % 256).toNat, by omega⟩

/-! ## float64 -/

/-- A Go `float64`.  `fin k` is the finite value `k * 2^(-1074)`. -/
inductive F64 where
  | nan : F64
  | ninf : F64
  | pinf : F64
  | fin (k : Int) : F64
deriving DecidableEq

namespace F64

/-- Number of quanta in `1.0`. -/
@[irreducible]
def quanta : Nat := 2 ^ 1074

/-- First magnitude (in quanta) that no longer fits a finite double: `2^1024`. -/
@[irreducible]
def overflowAt : Nat := 2 ^ 2098

/-- Conversion `float64(z)` of an integer; exact for `|z| < 2^53`. -/
def ofInt (z : Int) : F64 := fin (z * quanta)

/-- Go `a < b` on `float64`: false as soon as one side is NaN. -/
def lt : F64 → F64 → Bool
  | nan, _ => false
  | _, nan => false
  | _, ninf => false
  | ninf, _ => true
  | pinf, _ => false
  | fin _, pinf => true
  | fin a, fin b => decide (a < b)

/-- Auxiliary loop of `ilog2`. -/
def ilog2Aux : Nat → Nat → Nat → Nat
  | 0, _, acc => acc
  | fuel + 1, n, acc => if 2 ≤ n then ilog2Aux fuel (n / 2) (acc + 1) else acc

/-- Position of the highest set bit of `n` (0 for `n ≤ 1`). -/
def ilog2 (n : Nat) : Nat := ilog2Aux n n 0

/-- IEEE-754 binary64 rounding, round-to-nearest ties-to-even, of the
non-negative rational `num / den` quanta to a magnitude with at most 53
significant bits (in quanta, so magnitudes below `2^53` quanta, the subnormal
range and the first binade, round to an integer number of quanta). -/
def roundNearestEven (num den : Nat) : Nat :=
  let q := num / den
  let s := ilog2 q - 52
  let ulp := den * 2 ^ s
  let m := num / ulp
  let r := num % ulp
  if 2 * r > ulp ∨ (2 * r = ulp ∧ m % 2 = 1) then (m + 1) * 2 ^ s else m * 2 ^ s

/-- Signed result of an arithmetic operation whose exact magnitude is
`num / den` quanta: rounded, overflowing to an infinity. -/
def rounded (neg : Bool) (num den : Nat) : F64 :=
  let r := roundNearestEven num den
  if overflowAt ≤ r then (if neg then ninf else pinf)
  else fin (if neg then -(r : Int) else (r : Int))

/-- Go `a * b` on `float64`. -/
def mul : F64 → F64 → F64
  | nan, _ => nan
  | _, nan => nan
  | fin a, fin b => rounded (decide (a * b < 0)) (a.natAbs * b.natAbs) quanta
  | fin a, pinf => if a = 0 then nan else if a < 0 then ninf else pinf
  | fin a, ninf => if a = 0 then nan else if a < 0 then pinf else ninf
  | pinf, fin b => if b = 0 then nan else if b < 0 then ninf else pinf
  | ninf, fin b => if b = 0 then nan else if b < 0 then pinf else ninf
  | pinf, pinf => pinf
  | ninf, ninf => pinf
  | pinf, ninf => ninf
  | ninf, pinf => ninf

/-- Go `a / b` on `float64`. -/
def div : F64 → F64 → F64
  | nan, _ => nan
  | _, nan => nan
  | fin a, fin b =>
    if b = 0 then (if a = 0 then nan else if a < 0 then ninf else pinf)
    else rounded (decide (a * b < 0)) (a.natAbs * quanta) b.natAbs
  | fin _, pinf => fin 0
  | fin _, ninf => fin 0
  | pinf, fin b => if b < 0 then ninf else pinf
  | ninf, fin b => if b < 0 then pinf else ninf
  | pinf, pinf => nan
  | pinf, ninf => nan
  | ninf, pinf => nan
  | ninf, ninf => nan

/-- Go conversion `int16(x)` of a `float64`: the fraction is discarded
(truncation toward zero).  When the truncated value does not fit `int16`, or
`x` is NaN or infinite, Go leaves the result implementation-dependent: it is
then whatever 16-bit value the platform function `impl` yields. -/
def toInt16 (impl : F64 → Int) : F64 → Int
  | fin k =>
    let t := Int.tdiv k quanta
    if -32768 ≤ t ∧ t ≤ 32767 then t else wrapInt16 (impl (fin k))
  | x => wrapInt16 (impl x)

/-- Exact rational value of a finite `float64`. -/
def toRatOpt : F64 → Option ℚ
  | fin k => some ((k : ℚ) / (quanta : ℚ))
  | _ => none

/-- Go `max(a, b)` on `float64`: NaN if either argument is NaN. -/
def max (a b : F64) : F64 :=
  if a = nan ∨ b = nan then nan else if lt a b then b else a

/-- Go `min(a, b)` on `float64`: NaN if either argument is NaN. -/
def min (a b : F64) : F64 :=
  if a = nan ∨ b = nan then nan else if lt b a then b else a

end F64

/-! ## Playback bridge -/

/-- One element of `[][2]float64`: the left and right value of a frame. -/
abbrev Sample := F64 × F64

/-- Body of the inner loop of `update` for one channel value `val`: clip,
scale by `1<<15 - 1`, convert to `int16`, split into low and high byte. -/
def encodeVal (impl : F64 → Int) (val : F64) : List Byte :=
  let val := if F64.lt val (F64.ofInt (-1)) then F64.ofInt (-1) else val
  let val := if F64.lt (F64.ofInt 1) val then F64.ofInt 1 else val
  let valInt16 := F64.toInt16 impl (F64.mul val (F64.ofInt (2 ^ 15 - 1)))
  let low := toByte valInt16
  let high := toByte (valInt16 >>> (8 : Nat))
  [low, high]

/-- Lines 220-227 of `update`: the integer `valInt16` computed for one channel
value `val`. -/
def valInt16 (impl : F64 → Int) (val : F64) : Int :=
  let val := if F64.lt val (F64.ofInt (-1)) then F64.ofInt (-1) else val
  let val := if F64.lt (F64.ofInt 1) val then F64.ofInt 1 else val
  F64.toInt16 impl (F64.mul val (F64.ofInt (2 ^ 15 - 1)))

/-- Contents of the global `samples` after `mixer.Stream(samples)`: the mixer
(an external collaborator) overwrites all `bufferSize` entries; `mixOut i` is
the value it leaves at index `i`. -/
def mixerStream (bufferSize : Nat) (mixOut : Nat → Sample) : List Sample :=
  (List.range bufferSize).map mixOut

/-- Go `update()`: pull one buffer from the mixer, then for every sample and
every channel of it append the two encoded bytes to `buf`. -/
def update (impl : F64 → Int) (bufferSize : Nat) (mixOut : Nat → Sample)
    (buf : List Byte) : List Byte :=
  (mixerStream bufferSize mixOut).foldl
    (fun buf s => [s.1, s.2].foldl (fun buf val => buf ++ encodeVal impl val) buf) buf

/-- Byte count computed by `onSamples`, in `uint32` arithmetic:
`framecount * Channels * SampleSizeInBytes(Format)` with 2 channels of
`FormatS16` (2 bytes). -/
def byteCount (framecount : Nat) : Nat :=
  (framecount % 2 ^ 32 * 2 % 2 ^ 32) * 2 % 2 ^ 32

/-- Go `copy(dst, src)`: the first `min(len dst, len src)` bytes of `dst` are
replaced by those of `src`. -/
def goCopy (dst src : List Byte) : List Byte :=
  src.take dst.length ++ dst.drop src.length

/-- Lines 129-131 of `onSamples`: at most one refill.  Returns the buffer and
the number of `update()` calls made. -/
def refill (impl : F64 → Int) (bufferSize : Nat) (mixOut : Nat → Sample)
    (buf : List Byte) (framecount : Nat) : List Byte × Nat :=
  if buf.length < byteCount framecount then (update impl bufferSize mixOut buf, 1)
  else (buf, 0)

/-- Lines 132-133 of `onSamples`.  `spare` is what the backing array of `buf`
holds beyond `len(buf)`, so `cap(buf) = len(buf) + len(spare)`: the slice
`buf[:n]` is checked against the capacity, the slice `buf[n:]` against the
length.  Returns the output slot and the new carry-over buffer. -/
def deliver (spare pOutputSample buf : List Byte) (n : Nat) :
    Option (List Byte × List Byte) :=
  if n ≤ buf.length + spare.length then
    let out := goCopy pOutputSample ((buf ++ spare).take n)
    if n ≤ buf.length then some (out, buf.drop n) else none
  else none

/-- The playback data callback `onSamples(pOutputSample, _, framecount)` run
on carry-over buffer `buf`.  `none` is a slice-bounds panic. -/
def onSamples (impl : F64 → Int) (bufferSize : Nat) (mixOut : Nat → Sample)
    (spare pOutputSample buf : List Byte) (framecount : Nat) :
    Option (List Byte × List Byte) :=
  deliver spare pOutputSample (refill impl bufferSize mixOut buf framecount).1
    (byteCount framecount)

/-! ## Reference encoding, written from the specification -/

/-- Clipping as the specification words it: `min(1, max(-1, v))`. -/
def specClip (v : F64) : F64 := F64.min (F64.ofInt 1) (F64.max (F64.ofInt (-1)) v)

/-- Two's-complement 16-bit pattern of an integer, as a number below `2^16`. -/
def twosComplement16 (z : Int) : Nat := (z % 65536).toNat

/-- Little-endian bytes of a 16-bit pattern. -/
def le16 (w : Nat) : List Byte := [Fin.ofNat (w % 256), Fin.ofNat (w / 256)]

/-! ## Arithmetic reference for the playback encoding, written from the specification -/

/-- Clipping of an exact sample value as the specification words it:
`value < -1 → -1`, `value > 1 → 1`. -/
def specClipQ (x : ℚ) : ℚ := min 1 (max (-1) x)

/-- Exact value of a channel sample after clipping: the infinities clip to
`-1` and `1`; NaN has no value. -/
def specClippedValue : F64 → Option ℚ
  | F64.nan => none
  | F64.ninf => some (-1)
  | F64.pinf => some 1
  | F64.fin k => some (specClipQ ((k : ℚ) / 2 ^ 1074))

/-- Truncation of a rational toward zero. -/
def truncTowardZero (x : ℚ) : Int := if 0 ≤ x then ⌊x⌋ else ⌈x⌉

/-- The channel integer in exact arithmetic: the clipped value multiplied by
32767 and truncated toward zero. -/
def specExactInt16 (v : F64) : Option Int :=
  (specClippedValue v).map (fun x => truncTowardZero (x * 32767))

/-- The rationals that are finite float64 values: `m * 2^(e - 1074)` with
`|m| < 2^53` and `e - 1074 ≤ 971`. -/
def IsF64 (y : ℚ) : Prop :=
  ∃ (m : Int) (e : Nat), |m| < 2 ^ 53 ∧ e ≤ 2045 ∧ y = (m : ℚ) * 2 ^ e / 2 ^ 1074

/-- IEEE-754 round-to-nearest, ties-to-even, as a relation: `y` is a float64,
no float64 is nearer to `p`, and if another float64 is exactly as near then
`y` is an even multiple of the gap between the two. -/
def IsNearestEvenF64 (p y : ℚ) : Prop :=
  IsF64 y
    ∧ (∀ y1, IsF64 y1 → |y - p| ≤ |y1 - p|)
    ∧ (∀ y1, IsF64 y1 → y1 ≠ y → |y1 - p| = |y - p| →
        ∃ m : Int, Even m ∧ y = (m : ℚ) * (y1 - y))

/-- The channel integer with the float64 rounding of the product made
explicit, in exact arithmetic: for a sample with a value, `z` is the clipped
value multiplied by 32767, rounded to the nearest float64 (ties to even) and
truncated toward zero. -/
def IsSpecInt16 (v : F64) (z : Int) : Prop :=
  ∀ x, specClippedValue v = some x →
    ∃ y, IsNearestEvenF64 (x * 32767) y ∧ z = truncTowardZero y

/-! ## Engine teardown -/

/-- Operations `Close` performs on the outside world. -/
inductive DeviceOp where
  | signalDone : DeviceOp
  | stop : DeviceOp
  | uninit : DeviceOp
deriving DecidableEq

/-- The part of the engine state `Close` reads and writes: the `player` device
handle and the `done` channel (`none` is Go `nil`), and the log of device
operations performed so far, oldest first. -/
structure Engine where
  player : Option Nat
  done : Option Nat
  ops : List DeviceOp
deriving DecidableEq

/-- Go `Close()`. -/
def Close (s : Engine) : Engine :=
  match s.player with
  | none => s
  | some _ =>
    let s1 : Engine :=
      match s.done with
      | some _ => { s with done := none, ops := s.ops ++ [DeviceOp.signalDone] }
      | none => s
    { s1 with player := none, ops := s1.ops ++ [DeviceOp.stop, DeviceOp.uninit] }

/-! ## Capture adapter -/

/-- Ring buffer call `WriteAndMaybeOverwriteOldestData(p)` of the external
ring-buffer library, on a ring of capacity `capacity` whose readable bytes are
`ring` (oldest first): the newest `capacity` bytes are kept. -/
def WriteAndMaybeOverwriteOldestData (capacity : Nat) (ring p : List Byte) : List Byte :=
  (ring ++ p).drop ((ring ++ p).length - capacity)

/-- Ring buffer call `ReadAndMaybeAdvance(p, true)` of the external ring-buffer
library: nothing to do for an empty `p`, the error `io.EOF` (`none`) on an
empty ring, otherwise the oldest `min(len p, readable)` bytes are copied to the
front of `p` and removed from the ring.  Returns the count, `p` and the ring. -/
def ReadAndMaybeAdvance (ring p : List Byte) : Option (Nat × List Byte × List Byte) :=
  if p.length = 0 then some (0, p, ring)
  else if ring.length = 0 then none
  else
    let n := Nat.min p.length ring.length
    some (n, goCopy p (ring.take n), ring.drop n)

/-- The integer `int16(e1) + int16(e2)*(1<<8)` of the decode loops, in
wrapping `int16` arithmetic. -/
def pcm16 (e1 e2 : Byte) : Int :=
  wrapInt16 ((e1.val : Int) + wrapInt16 ((e2.val : Int) * 2 ^ 8))

/-- The sample value `float64(s) / (1<<16 - 1)` of the decode loops. -/
def normalise (s : Int) : F64 := F64.div (F64.ofInt s) (F64.ofInt (2 ^ 16 - 1))

/-- The mono loop of `Stream` from index `i` on, over the samples not yet
visited; `count` is the loop's countdown.  `none` is an index panic. -/
def monoLoop (buf : List Byte) : Nat → Int → List Sample → Option (List Sample)
  | _, _, [] => some []
  | i, count, _ :: rest => do
    let e1 ← buf[i * 2]?
    let e2 ← buf[i * 2 + 1]?
    let val := normalise (pcm16 e1 e2)
    let count := count - 1
    if count = 0 then some ((val, val) :: rest)
    else (monoLoop buf (i + 1) count rest).map (fun out => (val, val) :: out)

/-- The stereo loop of `Stream`, as `monoLoop`. -/
def stereoLoop (buf : List Byte) : Nat → Int → List Sample → Option (List Sample)
  | _, _, [] => some []
  | i, count, _ :: rest => do
    let e1 ← buf[i * 4]?
    let e2 ← buf[i * 4 + 1]?
    let e3 ← buf[i * 4 + 1]?
    let e4 ← buf[i * 4 + 1]?
    let val1 := normalise (pcm16 e1 e2)
    let val2 := normalise (pcm16 e3 e4)
    let count := count - 1
    if count = 0 then some ((val1, val2) :: rest)
    else (stereoLoop buf (i + 1) count rest).map (fun out => (val1, val2) :: out)

/-- What one `Stream` call leaves behind: the returned pair `(n, ok)`, the
caller's sample buffer and the readable bytes of the ring. -/
structure StreamResult where
  n : Int
  ok : Bool
  samples : List Sample
  ring : List Byte
deriving DecidableEq

/-- Go `(*deviceCapture).Stream(samples)` from line 333 on, that is once the
wait of lines 328-331 is over, on a device with `channels` capture channels and
a ring whose readable bytes are `ring`.  `none` is the `log.Fatalln` exit on a
read error, or an index panic. -/
def Stream (channels : Nat) (ring : List Byte) (samples : List Sample) :
    Option StreamResult :=
  let samplesSize := channels * samples.length * 2
  let buf := List.replicate samplesSize (0 : Byte)
  match ReadAndMaybeAdvance ring buf with
  | none => none
  | some (readCount, buf, ring) =>
    let sampleLen : Int := samples.length
    let count := if (readCount : Int) < sampleLen then (readCount : Int) else sampleLen
    let actLen := if (readCount : Int) < sampleLen then (readCount : Int) else sampleLen
    let decoded :=
      if channels = 1 then monoLoop buf 0 count samples
      else if channels = 2 then stereoLoop buf 0 count samples
      else some samples
    decoded.map (fun out => { n := actLen, ok := true, samples := out, ring := ring })

/-- Little-endian signed 16-bit value of a byte pair, written from the
specification: `b0 + 256*b1`, minus 65536 when the sign bit of `b1` is set. -/
def specLE16 (b0 b1 : Byte) : Int :=
  (b0.val : Int) + 256 * (b1.val : Int) - (if 128 ≤ b1.val then 65536 else 0)

/-! ## Capture adapter as a transition system -/

/-- Observable events of the producer/consumer handshake. -/
inductive CapEvent where
  | waitBegin : CapEvent
  | clearMore : CapEvent
  | sendReady : CapEvent
deriving DecidableEq

/-- Where the single consumer stands: outside `Stream`, blocked in the
receive from `ready`, or past the wait and about to read. -/
inductive ConsumerAt where
  | outside : ConsumerAt
  | parked : ConsumerAt
  | reading : ConsumerAt
deriving DecidableEq

/-- State of a `deviceCapture`: channel count, ring capacity and readable
bytes, the `more` flag, the consumer position and the event trace. -/
structure CaptureState where
  channels : Nat
  capacity : Nat
  ring : List Byte
  more : Bool
  consumer : ConsumerAt
  trace : List CapEvent
deriving DecidableEq

/-- State built by `DeviceCapture(sr, device, bufferSize, numChannels)`. -/
def CaptureState.init (bufferSize numChannels : Nat) : CaptureState :=
  { channels := numChannels, capacity := bufferSize * numChannels, ring := [],
    more := false, consumer := ConsumerAt.outside, trace := [] }

/-- Go `onCapSamples(_, pInputSamples, framecount)`, the producer callback.
`none` is the slice-bounds panic of `pInputSamples[:byteCount]`.  The send on
the unbuffered `ready` channel completes with the parked consumer's receive. -/
def onCapSamples (s : CaptureState) (pInputSamples : List Byte) (framecount : Nat) :
    Option CaptureState :=
  let byteCount := (framecount % 2 ^ 32 * (s.channels % 2 ^ 32) % 2 ^ 32) * 2 % 2 ^ 32
  if byteCount ≤ pInputSamples.length then
    let s1 := { s with
      ring := WriteAndMaybeOverwriteOldestData s.capacity s.ring (pInputSamples.take byteCount) }
    if s1.more then
      let s2 := { s1 with more := false, trace := s1.trace ++ [CapEvent.clearMore] }
      some { s2 with
        trace := s2.trace ++ [CapEvent.sendReady],
        consumer := if s2.consumer = ConsumerAt.parked then ConsumerAt.reading else s2.consumer }
    else some s1
  else none

/-- Lines 328-331 of `Stream`: entering the call, the consumer raises `more`
and blocks when the ring is empty. -/
def streamEnter (s : CaptureState) : CaptureState :=
  if s.ring.length = 0 then
    { s with more := true, consumer := ConsumerAt.parked,
             trace := s.trace ++ [CapEvent.waitBegin] }
  else { s with consumer := ConsumerAt.reading }

/-- Moves of the transition system. -/
inductive CapAction where
  | produce (pInputSamples : List Byte) (framecount : Nat) : CapAction
  | enter : CapAction
  | read (samples : List Sample) : CapAction

/-- One move; `none` when the move is not enabled (a second `Stream` call
while one is in progress, a read by a blocked consumer) or the code panics or
exits. -/
def capStep (s : CaptureState) : CapAction → Option CaptureState
  | CapAction.produce p f => onCapSamples s p f
  | CapAction.enter =>
    if s.consumer = ConsumerAt.outside then some (streamEnter s) else none
  | CapAction.read samples =>
    if s.consumer = ConsumerAt.reading then
      (Stream s.channels s.ring samples).map
        (fun r => { s with ring := r.ring, consumer := ConsumerAt.outside })
    else none

/-- A run of moves from a state. -/
def capRun (s : CaptureState) : List CapAction → Option CaptureState
  | [] => some s
  | a :: rest => (capStep s a).bind (fun s1 => capRun s1 rest)

/-- Number of ready signals sent so far. -/
def CaptureState.sent (s : CaptureState) : Nat := s.trace.count CapEvent.sendReady

/-- Number of consumer waits begun so far. -/
def CaptureState.waits (s : CaptureState) : Nat := s.trace.count CapEvent.waitBegin

/-- Invariant of the handshake: every wait begun is either already signalled
or the one the consumer is blocked in, and `more` is set exactly while the
consumer is blocked. -/
def CaptureState.Inv (s : CaptureState) : Prop :=
  s.sent + (if s.more then 1 else 0) = s.waits
    ∧ (s.more = true ↔ s.consumer = ConsumerAt.parked)

/-! ## Sequences of playback callbacks -/

/-- What the device layer and the mixer supply to one invocation of the data
callback: the requested frame count, the output slot, the mixer output of the
pull this invocation may make, and the spare capacity of the carry-over buffer
at the time it is sliced. -/
structure Callback where
  framecount : Nat
  pOutputSample : List Byte
  mixOut : Nat → Sample
  spare : List Byte

/-- The global `buf` after a sequence of `onSamples` invocations, oldest
first, started on carry-over buffer `buf`.  `none` as soon as one invocation
panics. -/
def runCallbacks (impl : F64 → Int) (bufferSize : Nat) (buf : List Byte) :
    List Callback → Option (List Byte)
  | [] => some buf
  | c :: rest =>
    match onSamples impl bufferSize c.mixOut c.spare c.pOutputSample buf c.framecount with
    | none => none
    | some (_, buf1) => runCallbacks impl bufferSize buf1 rest

/-! ## Playback: encoding lemmas -/

theorem quanta_pos : (0 : Int) < (F64.quanta : Int) := by
  unfold F64.quanta; positivity

theorem F64.lt_fin (a b : Int) : F64.lt (F64.fin a) (F64.fin b) = decide (a < b) := rfl

theorem F64.max_fin (a b : Int) :
    F64.max (F64.fin a) (F64.fin b) = F64.fin (if a < b then b else a) := by
  by_cases h : a < b <;> simp [F64.max, F64.lt_fin, h]

theorem F64.min_fin (a b : Int) :
    F64.min (F64.fin a) (F64.fin b) = F64.fin (if b < a then b else a) := by
  by_cases h : b < a <;> simp [F64.min, F64.lt_fin, h]

theorem specClip_nan : specClip F64.nan = F64.nan := by
  simp [specClip, F64.max, F64.min]

theorem specClip_ninf : specClip F64.ninf = F64.ofInt (-1) := by
  have hq := quanta_pos
  have h : F64.max (F64.ofInt (-1)) F64.ninf = F64.ofInt (-1) := by
    simp [F64.max, F64.ofInt, F64.lt]
  rw [specClip, h, F64.ofInt, F64.ofInt, F64.min_fin]
  congr 1
  split_ifs <;> omega

theorem specClip_pinf : specClip F64.pinf = F64.ofInt 1 := by
  have h : F64.max (F64.ofInt (-1)) F64.pinf = F64.pinf := by
    simp [F64.max, F64.ofInt, F64.lt]
  rw [specClip, h]
  simp [F64.min, F64.ofInt, F64.lt]

theorem specClip_fin (k : Int) :
    specClip (F64.fin k) =
      F64.fin (if k < -(F64.quanta : Int) then -(F64.quanta : Int)
               else if (F64.quanta : Int) < k then (F64.quanta : Int) else k) := by
  have hq := quanta_pos
  rw [specClip, F64.ofInt, F64.ofInt, F64.max_fin, F64.min_fin]
  congr 1
  split_ifs <;> omega

/-- The clipping of lines 221-226 is the specification's `min(1, max(-1, v))`. -/
theorem clip_eq_specClip (v : F64) :
    (if F64.lt (F64.ofInt 1) (if F64.lt v (F64.ofInt (-1)) then F64.ofInt (-1) else v)
      then F64.ofInt 1
      else (if F64.lt v (F64.ofInt (-1)) then F64.ofInt (-1) else v)) = specClip v := by
  have hq := quanta_pos
  cases v with
  | nan => rw [specClip_nan]; simp [F64.lt, F64.ofInt]
  | ninf =>
    rw [specClip_ninf]
    have h : ¬ ((F64.quanta : Int) < -(F64.quanta : Int)) := by omega
    simp [F64.lt, F64.ofInt, h]
  | pinf => rw [specClip_pinf]; simp [F64.lt, F64.ofInt]
  | fin k =>
    rw [specClip_fin]
    simp only [F64.ofInt, F64.lt_fin]
    by_cases h1 : k < -(F64.quanta : Int)
    · have h : ¬ ((F64.quanta : Int) < -(F64.quanta : Int)) := by omega
      simp [h1, h, F64.lt_fin]
    · by_cases h2 : (F64.quanta : Int) < k
      · simp [h1, h2, F64.lt_fin]
      · simp [h1, h2, F64.lt_fin]

theorem specClip_idem (v : F64) : specClip (specClip v) = specClip v := by
  have hq := quanta_pos
  cases v with
  | nan => simp [specClip_nan]
  | ninf =>
    rw [specClip_ninf, F64.ofInt, specClip_fin]
    congr 1
    split_ifs <;> omega
  | pinf =>
    rw [specClip_pinf, F64.ofInt, specClip_fin]
    congr 1
    split_ifs <;> omega
  | fin k =>
    rw [specClip_fin, specClip_fin]
    congr 1
    split_ifs <;> omega

theorem toByte_low (z : Int) : toByte z = Fin.ofNat (twosComplement16 z % 256) := by
  apply Fin.ext
  simp only [toByte, twosComplement16, Fin.ofNat]
  omega

theorem toByte_high (z : Int) : toByte (z >>> (8 : Nat)) = Fin.ofNat (twosComplement16 z / 256) := by
  apply Fin.ext
  have h : z >>> (8 : Nat) = z / 256 := by
    rw [Int.shiftRight_eq_div_pow]; norm_num
  simp only [toByte, twosComplement16, Fin.ofNat, h]
  omega

theorem encodeVal_eq_val (impl : F64 → Int) (v : F64) :
    encodeVal impl v = le16 (twosComplement16 (valInt16 impl v)) := by
  simp only [encodeVal, valInt16]
  rw [toByte_high, toByte_low]
  rfl

theorem valInt16_eq (impl : F64 → Int) (v : F64) :
    valInt16 impl v = F64.toInt16 impl (F64.mul (specClip v) (F64.ofInt 32767)) := by
  have h := clip_eq_specClip v
  simp only [valInt16, h]
  rfl

theorem update_eq_flatMap (impl : F64 → Int) (bufferSize : Nat) (mixOut : Nat → Sample)
    (buf : List Byte) :
    update impl bufferSize mixOut buf
      = buf ++ (List.range bufferSize).flatMap
          (fun i => encodeVal impl (mixOut i).1 ++ encodeVal impl (mixOut i).2) := by
  unfold update mixerStream
  simp only [List.foldl_cons, List.foldl_nil]
  generalize List.range bufferSize = l
  induction l generalizing buf with
  | nil => simp
  | cons a l ih =>
    simp only [List.map_cons, List.foldl_cons, List.flatMap_cons]
    rw [ih]
    simp [List.append_assoc]

theorem update_length (impl : F64 → Int) (bufferSize : Nat) (mixOut : Nat → Sample)
    (buf : List Byte) :
    (update impl bufferSize mixOut buf).length = buf.length + 4 * bufferSize := by
  rw [update_eq_flatMap]
  generalize hl : List.range bufferSize = l
  have : l.length = bufferSize := by rw [← hl]; simp
  rw [← this]
  clear hl this
  induction l with
  | nil => simp
  | cons a l ih =>
    simp only [List.flatMap_cons, List.length_append, List.length_cons] at ih ⊢
    simp only [encodeVal, List.length_cons, List.length_nil] at ih ⊢
    omega

/-! ## Playback: the data callback -/

theorem byteCount_eq (f : Nat) : byteCount f = 4 * f % 2 ^ 32 := by
  unfold byteCount
  omega

theorem byteCount_of_lt (f : Nat) (hf : f < 2 ^ 30) : byteCount f = 4 * f := by
  rw [byteCount_eq]
  omega

theorem goCopy_of_le (dst src : List Byte) (h : src.length ≤ dst.length) :
    goCopy dst src = src ++ dst.drop src.length := by
  unfold goCopy
  rw [List.take_of_length_le h]

theorem deliver_eq_none_iff (spare out buf : List Byte) (n : Nat) :
    deliver spare out buf n = none ↔ buf.length < n := by
  unfold deliver
  by_cases h1 : n ≤ buf.length + spare.length
  · by_cases h2 : n ≤ buf.length
    · simp [h1, h2]
    · simp [h1, h2]; omega
  · simp [h1]; omega

theorem onSamples_eq_none_iff (impl : F64 → Int) (bufferSize : Nat) (mixOut : Nat → Sample)
    (spare pOutputSample buf : List Byte) (f : Nat) :
    onSamples impl bufferSize mixOut spare pOutputSample buf f = none
      ↔ (refill impl bufferSize mixOut buf f).1.length < byteCount f := by
  rw [onSamples, deliver_eq_none_iff]

theorem deliver_of_le (spare out buf : List Byte) (n : Nat) (hb : n ≤ buf.length)
    (ho : n ≤ out.length) :
    deliver spare out buf n = some (buf.take n ++ out.drop n, buf.drop n) := by
  unfold deliver
  have h1 : n ≤ buf.length + spare.length := by omega
  have h3 : (buf ++ spare).take n = buf.take n := List.take_append_of_le_length hb
  have h4 : (buf.take n).length = n := by simp [hb]
  rw [if_pos h1, if_pos hb, h3, goCopy_of_le _ _ (by omega), h4]

theorem mul_one_scale :
    F64.mul (F64.ofInt 1) (F64.ofInt 32767) = F64.ofInt 32767 := by decide!

theorem mul_negOne_scale :
    F64.mul (F64.ofInt (-1)) (F64.ofInt 32767) = F64.ofInt (-32767) := by decide!

theorem toInt16_ofInt (impl : F64 → Int) (z : Int) (h1 : -32768 ≤ z) (h2 : z ≤ 32767) :
    F64.toInt16 impl (F64.ofInt z) = z := by
  have hq := quanta_pos
  have h : Int.tdiv (z * (F64.quanta : Int)) (F64.quanta : Int) = z :=
    Int.mul_tdiv_cancel z (by omega)
  simp [F64.toInt16, F64.ofInt, h, h1, h2]

theorem range_one : List.range 1 = [0] := rfl

theorem encodeVal_one (impl : F64 → Int) : encodeVal impl (F64.ofInt 1) = [255, 127] := by
  have h1 : specClip (F64.ofInt 1) = F64.ofInt 1 := by decide!
  rw [encodeVal_eq_val, valInt16_eq, h1, mul_one_scale,
    toInt16_ofInt impl 32767 (by decide) (by decide)]
  decide

theorem encodeVal_negOne (impl : F64 → Int) : encodeVal impl (F64.ofInt (-1)) = [1, 128] := by
  have h1 : specClip (F64.ofInt (-1)) = F64.ofInt (-1) := by decide!
  rw [encodeVal_eq_val, valInt16_eq, h1, mul_negOne_scale,
    toInt16_ofInt impl (-32767) (by decide) (by decide)]
  decide

theorem encodeVal_specClip (impl : F64 → Int) (v : F64) :
    encodeVal impl (specClip v) = encodeVal impl v := by
  rw [encodeVal_eq_val, encodeVal_eq_val, valInt16_eq, valInt16_eq, specClip_idem]

/-! ## float64 rounding: what `roundNearestEven` computes -/

theorem quanta_eq : F64.quanta = 2 ^ 1074 := by
  rw [F64.quanta]

theorem overflowAt_eq : F64.overflowAt = 2 ^ 2098 := by
  rw [F64.overflowAt]

theorem ilog2Aux_spec : ∀ (fuel n acc : Nat), 1 ≤ n → n ≤ fuel →
    ∃ L, F64.ilog2Aux fuel n acc = acc + L ∧ 2 ^ L ≤ n ∧ n < 2 ^ (L + 1) := by
  intro fuel
  induction fuel with
  | zero => intro n acc h1 h2; omega
  | succ fuel ih =>
    intro n acc h1 h2
    by_cases h : 2 ≤ n
    · obtain ⟨L, hL, hlo, hhi⟩ := ih (n / 2) (acc + 1) (by omega) (by omega)
      refine ⟨L + 1, ?_, ?_, ?_⟩
      · simp only [F64.ilog2Aux, h, if_true, hL]; omega
      · rw [pow_succ]; omega
      · rw [pow_succ] at hhi ⊢; omega
    · refine ⟨0, ?_, ?_, ?_⟩
      · simp only [F64.ilog2Aux, h, if_false]; rfl
      · simpa using h1
      · simp; omega

theorem ilog2_spec (n : Nat) (h : 1 ≤ n) :
    2 ^ F64.ilog2 n ≤ n ∧ n < 2 ^ (F64.ilog2 n + 1) := by
  obtain ⟨L, hL, hlo, hhi⟩ := ilog2Aux_spec n n 0 h (Nat.le_refl n)
  have : F64.ilog2 n = L := by rw [F64.ilog2, hL]; omega
  rw [this]
  exact ⟨hlo, hhi⟩

/-- Rounding an integer number `E` of quanta: the result is a multiple
`m * 2^s` of the spacing `2^s`, `s = ilog2 E - 52`, at distance at most half
the spacing from `E`, with `m` even when the distance is exactly half. -/
theorem roundNearestEven_mul_quanta (E : Nat) :
    ∃ m, F64.roundNearestEven (E * F64.quanta) F64.quanta = m * 2 ^ (F64.ilog2 E - 52)
      ∧ 2 * (m * 2 ^ (F64.ilog2 E - 52)) ≤ 2 * E + 2 ^ (F64.ilog2 E - 52)
      ∧ 2 * E ≤ 2 * (m * 2 ^ (F64.ilog2 E - 52)) + 2 ^ (F64.ilog2 E - 52)
      ∧ (2 * (m * 2 ^ (F64.ilog2 E - 52)) = 2 * E + 2 ^ (F64.ilog2 E - 52)
          ∨ 2 * E = 2 * (m * 2 ^ (F64.ilog2 E - 52)) + 2 ^ (F64.ilog2 E - 52) → m % 2 = 0) := by
  have hQ : 0 < F64.quanta := by rw [quanta_eq]; positivity
  generalize hs : F64.ilog2 E - 52 = s
  have hD : 0 < 2 ^ s := by positivity
  have hq : E * F64.quanta / F64.quanta = E := Nat.mul_div_cancel E hQ
  have hm : E * F64.quanta / (F64.quanta * 2 ^ s) = E / 2 ^ s := by
    rw [Nat.mul_comm E, Nat.mul_div_mul_left _ _ hQ]
  have hr : E * F64.quanta % (F64.quanta * 2 ^ s) = F64.quanta * (E % 2 ^ s) := by
    rw [Nat.mul_comm E, Nat.mul_mod_mul_left]
  have hdiv := Nat.div_add_mod E (2 ^ s)
  have hlt := Nat.mod_lt E hD
  have hmul : 2 ^ s * (E / 2 ^ s) = E / 2 ^ s * 2 ^ s := Nat.mul_comm _ _
  unfold F64.roundNearestEven
  simp only [hq, hs, hm, hr]
  have c1 : 2 * (F64.quanta * (E % 2 ^ s)) > F64.quanta * 2 ^ s ↔ 2 * (E % 2 ^ s) > 2 ^ s := by
    constructor
    · intro h; by_contra hc
      have : F64.quanta * (2 * (E % 2 ^ s)) ≤ F64.quanta * 2 ^ s :=
        Nat.mul_le_mul_left _ (by omega)
      nlinarith
    · intro h
      have : F64.quanta * 2 ^ s < F64.quanta * (2 * (E % 2 ^ s)) :=
        Nat.mul_lt_mul_of_pos_left h hQ
      nlinarith
  have c2 : 2 * (F64.quanta * (E % 2 ^ s)) = F64.quanta * 2 ^ s ↔ 2 * (E % 2 ^ s) = 2 ^ s := by
    constructor
    · intro h
      have : F64.quanta * (2 * (E % 2 ^ s)) = F64.quanta * 2 ^ s := by nlinarith
      exact Nat.eq_of_mul_eq_mul_left hQ this
    · intro h
      calc 2 * (F64.quanta * (E % 2 ^ s)) = F64.quanta * (2 * (E % 2 ^ s)) := by ring
        _ = F64.quanta * 2 ^ s := by rw [h]
  simp only [c1, c2]
  have hX : E / 2 ^ s * 2 ^ s + E % 2 ^ s = E := by rw [← hmul]; exact hdiv
  have hS : (E / 2 ^ s + 1) * 2 ^ s = E / 2 ^ s * 2 ^ s + 2 ^ s := by ring
  split_ifs with hc
  · refine ⟨E / 2 ^ s + 1, rfl, ?_⟩
    rw [hS]
    generalize E / 2 ^ s * 2 ^ s = X at hX ⊢
    generalize E % 2 ^ s = rem at hX hlt hc ⊢
    generalize E / 2 ^ s = m0 at hc ⊢
    generalize 2 ^ s = d at hD hlt hc ⊢
    omega
  · refine ⟨E / 2 ^ s, rfl, ?_⟩
    generalize E / 2 ^ s * 2 ^ s = X at hX ⊢
    generalize E % 2 ^ s = rem at hX hlt hc ⊢
    generalize E / 2 ^ s = m0 at hc ⊢
    generalize 2 ^ s = d at hD hlt hc ⊢
    omega

/-- Among the integers `m' * 2^e'` with `|m'| < 2^53` (the float64 values, in
quanta), none is nearer to `E` than a multiple `r` of the spacing `2^s` that
lies within half a spacing of `E`, when `2^s` is the spacing of float64 at
`E`. -/
theorem nearest_of_half_spacing (E r m s : Nat) (hr : r = m * 2 ^ s)
    (h1 : 2 * r ≤ 2 * E + 2 ^ s) (h2 : 2 * E ≤ 2 * r + 2 ^ s)
    (hs : s = 0 ∨ 2 ^ (s + 52) ≤ E) (m' : Int) (e' : Nat) (hm' : |m'| < 2 ^ 53) :
    |(r : Int) - (E : Int)| ≤ |m' * 2 ^ e' - (E : Int)| := by
  by_contra hlt
  push_neg at hlt
  rcases Nat.eq_zero_or_pos s with hs0 | hspos
  · subst hs0
    simp only [pow_zero] at h1 h2
    have : r = E := by omega
    subst this
    simp only [sub_self, abs_zero] at hlt
    exact absurd hlt (not_lt.mpr (abs_nonneg _))
  · have hE : 2 ^ (s + 52) ≤ E := by
      rcases hs with h | h
      · omega
      · exact h
    obtain ⟨t, rfl⟩ : ∃ t, s = t + 1 := ⟨s - 1, by omega⟩
    have hT : (0 : Int) < 2 ^ t := by positivity
    have hEi : (2 : Int) ^ 53 * 2 ^ t ≤ (E : Int) := by
      have : (2 : Nat) ^ (t + 1 + 52) = 2 ^ 53 * 2 ^ t := by rw [← pow_add]; congr 1; omega
      rw [this] at hE
      exact_mod_cast hE
    have h1i : 2 * (r : Int) ≤ 2 * (E : Int) + 2 * 2 ^ t := by
      have : (2 : Nat) ^ (t + 1) = 2 * 2 ^ t := by rw [pow_succ]; ring
      rw [this] at h1
      exact_mod_cast h1
    have h2i : 2 * (E : Int) ≤ 2 * (r : Int) + 2 * 2 ^ t := by
      have : (2 : Nat) ^ (t + 1) = 2 * 2 ^ t := by rw [pow_succ]; ring
      rw [this] at h2
      exact_mod_cast h2
    have hrE : |(r : Int) - (E : Int)| ≤ 2 ^ t := by
      rw [abs_le]; constructor <;> linarith
    have hYE := abs_lt.mp (lt_of_lt_of_le hlt hrE)
    by_cases he : e' < t + 1
    · have hpow : (2 : Int) ^ e' ≤ 2 ^ t :=
        pow_le_pow_right₀ (by norm_num) (by omega)
      have hm1 : |m'| ≤ 2 ^ 53 - 1 := by omega
      have hY : |m' * 2 ^ e'| ≤ (2 ^ 53 - 1) * 2 ^ t := by
        rw [abs_mul, abs_of_pos (show (0 : Int) < 2 ^ e' by positivity)]
        exact mul_le_mul hm1 hpow (by positivity) (by norm_num)
      have hle := le_abs_self (m' * 2 ^ e')
      have hA : ((2 : Int) ^ 53 - 1) * 2 ^ t = 2 ^ 53 * 2 ^ t - 2 ^ t := by ring
      rw [hA] at hY
      linarith [hYE.1]
    · have hdvd : (2 : Int) ^ (t + 1) ∣ m' * 2 ^ e' - (r : Int) := by
        apply dvd_sub
        · exact Dvd.dvd.mul_left (pow_dvd_pow 2 (by omega)) m'
        · rw [hr]; push_cast; exact Dvd.intro_left _ rfl
      have hrE' := abs_le.mp hrE
      have habs : |m' * 2 ^ e' - (r : Int)| < 2 ^ (t + 1) := by
        rw [abs_lt, pow_succ]; constructor <;> linarith
      have hz := Int.eq_zero_of_abs_lt_dvd hdvd habs
      have : m' * 2 ^ e' = (r : Int) := by linarith
      rw [this] at hlt
      exact lt_irrefl _ hlt

/-- Ties go to the even multiple: if another float64 value (in quanta) is
exactly as near to `E` as `r`, then `r` is an even multiple of their
difference. -/
theorem tie_even_of_half_spacing (E r m s : Nat) (hr : r = m * 2 ^ s)
    (h1 : 2 * r ≤ 2 * E + 2 ^ s) (h2 : 2 * E ≤ 2 * r + 2 ^ s)
    (hs : s = 0 ∨ 2 ^ (s + 52) ≤ E)
    (htie : 2 * r = 2 * E + 2 ^ s ∨ 2 * E = 2 * r + 2 ^ s → m % 2 = 0)
    (m' : Int) (e' : Nat) (hm' : |m'| < 2 ^ 53) (hne : m' * 2 ^ e' ≠ (r : Int))
    (heq : |m' * 2 ^ e' - (E : Int)| = |(r : Int) - (E : Int)|) :
    ∃ me : Int, Even me ∧ (r : Int) = me * (m' * 2 ^ e' - (r : Int)) := by
  rcases Nat.eq_zero_or_pos s with hs0 | hspos
  · subst hs0
    simp only [pow_zero] at h1 h2
    have : r = E := by omega
    subst this
    simp only [sub_self, abs_zero, abs_eq_zero] at heq
    exact absurd (by linarith) hne
  · have hE : 2 ^ (s + 52) ≤ E := by
      rcases hs with h | h
      · omega
      · exact h
    obtain ⟨t, rfl⟩ : ∃ t, s = t + 1 := ⟨s - 1, by omega⟩
    have hT : (0 : Int) < 2 ^ t := by positivity
    have hpowN : (2 : Nat) ^ (t + 1) = 2 * 2 ^ t := by rw [pow_succ]; ring
    have hpowI : (2 : Int) ^ (t + 1) = 2 * 2 ^ t := by rw [pow_succ]; ring
    have hEi : (2 : Int) ^ 53 * 2 ^ t ≤ (E : Int) := by
      have : (2 : Nat) ^ (t + 1 + 52) = 2 ^ 53 * 2 ^ t := by rw [← pow_add]; congr 1; omega
      rw [this] at hE
      exact_mod_cast hE
    have h1i : 2 * (r : Int) ≤ 2 * (E : Int) + 2 * 2 ^ t := by
      rw [hpowN] at h1
      exact_mod_cast h1
    have h2i : 2 * (E : Int) ≤ 2 * (r : Int) + 2 * 2 ^ t := by
      rw [hpowN] at h2
      exact_mod_cast h2
    have hrE : |(r : Int) - (E : Int)| ≤ 2 ^ t := by
      rw [abs_le]; constructor <;> linarith
    have hYE := abs_le.mp (heq ▸ hrE)
    have hrE' := abs_le.mp hrE
    have hrdvd : (2 : Int) ^ (t + 1) ∣ (r : Int) := by
      rw [hr]; push_cast; exact Dvd.intro_left _ rfl
    by_cases he : e' < t + 1
    · exfalso
      have hpow : (2 : Int) ^ e' ≤ 2 ^ t :=
        pow_le_pow_right₀ (by norm_num) (by omega)
      have hm1 : |m'| ≤ 2 ^ 53 - 1 := by omega
      have hY : |m' * 2 ^ e'| ≤ (2 ^ 53 - 1) * 2 ^ t := by
        rw [abs_mul, abs_of_pos (show (0 : Int) < 2 ^ e' by positivity)]
        exact mul_le_mul hm1 hpow (by positivity) (by norm_num)
      have hle := le_abs_self (m' * 2 ^ e')
      have hA : ((2 : Int) ^ 53 - 1) * 2 ^ t = 2 ^ 53 * 2 ^ t - 2 ^ t := by ring
      rw [hA] at hY
      have hEe : (E : Int) = 2 ^ 53 * 2 ^ t := by linarith
      have hEeq : (E : Int) = 2 ^ 52 * 2 ^ (t + 1) := by rw [hEe, hpowI]; ring
      have hYeq : m' * 2 ^ e' = (E : Int) - 2 ^ t := by linarith
      have hdvd : (2 : Int) ^ (t + 1) ∣ (r : Int) - (E : Int) := by
        apply dvd_sub hrdvd
        rw [hEeq]; exact Dvd.intro_left _ rfl
      have habs : |(r : Int) - (E : Int)| < 2 ^ (t + 1) := by
        rw [hpowI]; linarith
      have hz := Int.eq_zero_of_abs_lt_dvd hdvd habs
      rw [hz, hYeq] at heq
      simp only [abs_zero, abs_eq_zero] at heq
      linarith
    · have hdvd : (2 : Int) ^ (t + 1) ∣ m' * 2 ^ e' - (r : Int) := by
        apply dvd_sub _ hrdvd
        exact Dvd.dvd.mul_left (pow_dvd_pow 2 (by omega)) m'
      obtain ⟨k, hk⟩ := hdvd
      have hk0 : k ≠ 0 := by
        intro h0
        rw [h0, mul_zero] at hk
        exact hne (by linarith)
      have hYr : |m' * 2 ^ e' - (r : Int)| ≤ 2 ^ (t + 1) := by
        rw [abs_le, hpowI]; constructor <;> linarith
      have hk1 : |k| ≤ 1 := by
        rw [hk, abs_mul, abs_of_pos (show (0 : Int) < 2 ^ (t + 1) by positivity)] at hYr
        have hpos : (0 : Int) < 2 ^ (t + 1) := by positivity
        have hmul : (2 : Int) ^ (t + 1) * |k| ≤ 2 ^ (t + 1) * 1 := by rw [mul_one]; exact hYr
        exact le_of_mul_le_mul_left hmul hpos
      have hk' := abs_le.mp hk1
      have hmeven : m % 2 = 0 := by
        apply htie
        rw [hpowN]
        rcases (show k = 1 ∨ k = -1 by omega) with h | h
        · rw [h, mul_one, hpowI] at hk
          right
          have : 2 * (E : Int) = 2 * (r : Int) + 2 * 2 ^ t := by linarith
          exact_mod_cast this
        · rw [h, hpowI] at hk
          left
          have : 2 * (r : Int) = 2 * (E : Int) + 2 * 2 ^ t := by linarith
          exact_mod_cast this
      have hmI : Even (m : Int) := by
        rw [Int.even_iff]; omega
      rcases (show k = 1 ∨ k = -1 by omega) with h | h
      · refine ⟨(m : Int), hmI, ?_⟩
        rw [hk, h, mul_one, hr]; push_cast; ring
      · refine ⟨-(m : Int), hmI.neg, ?_⟩
        rw [hk, h, hr]; push_cast; ring

/-! ## float64 rounding: the arithmetic reference -/

theorem isNearestEven_unique (p y1 y2 : ℚ) (h1 : IsNearestEvenF64 p y1)
    (h2 : IsNearestEvenF64 p y2) : y1 = y2 := by
  by_contra hne
  obtain ⟨f1, n1, t1⟩ := h1
  obtain ⟨f2, n2, t2⟩ := h2
  have heq : |y2 - p| = |y1 - p| := le_antisymm (n2 y1 f1) (n1 y2 f2)
  obtain ⟨m1, e1, hy1⟩ := t1 y2 f2 (fun h => hne h.symm) heq
  obtain ⟨m2, e2, hy2⟩ := t2 y1 f1 hne heq.symm
  obtain ⟨a, ha⟩ := e1
  obtain ⟨b, hb⟩ := e2
  have hd : y2 - y1 ≠ 0 := fun h => hne (by linarith)
  have hsum : ((m1 + m2 + 1 : Int) : ℚ) * (y2 - y1) = 0 := by
    push_cast
    have : y2 - y1 = (m2 : ℚ) * (y1 - y2) - (m1 : ℚ) * (y2 - y1) := by
      rw [← hy2, ← hy1]
    linarith
  rcases mul_eq_zero.mp hsum with h | h
  · have : m1 + m2 + 1 = 0 := by exact_mod_cast h
    omega
  · exact hd h

theorem isNearestEven_of_quanta (P R : Int)
    (hrep : ∃ (m : Int) (e : Nat), |m| < 2 ^ 53 ∧ e ≤ 2045 ∧ R = m * 2 ^ e)
    (hnear : ∀ (m1 : Int) (e1 : Nat), |m1| < 2 ^ 53 → |R - P| ≤ |m1 * 2 ^ e1 - P|)
    (htie : ∀ (m1 : Int) (e1 : Nat), |m1| < 2 ^ 53 → m1 * 2 ^ e1 ≠ R →
      |m1 * 2 ^ e1 - P| = |R - P| → ∃ me : Int, Even me ∧ R = me * (m1 * 2 ^ e1 - R)) :
    IsNearestEvenF64 ((P : ℚ) / 2 ^ 1074) ((R : ℚ) / 2 ^ 1074) := by
  have hc : (0 : ℚ) < 2 ^ 1074 := by positivity
  have habs : ∀ a b : Int, |(a : ℚ) / 2 ^ 1074 - (b : ℚ) / 2 ^ 1074|
      = ((|a - b| : Int) : ℚ) / 2 ^ 1074 := by
    intro a b
    rw [← sub_div, abs_div, abs_of_pos hc]
    push_cast
    rfl
  refine ⟨?_, ?_, ?_⟩
  · obtain ⟨m, e, hm, he, hR⟩ := hrep
    exact ⟨m, e, hm, he, by rw [hR]; push_cast; rfl⟩
  · rintro y1 ⟨m1, e1, hm1, _, rfl⟩
    have hcast : (m1 : ℚ) * 2 ^ e1 = ((m1 * 2 ^ e1 : Int) : ℚ) := by push_cast; rfl
    rw [hcast, habs, habs]
    exact div_le_div_of_nonneg_right (by exact_mod_cast hnear m1 e1 hm1) hc.le
  · rintro y1 ⟨m1, e1, hm1, _, rfl⟩ hne heq
    have hcast : (m1 : ℚ) * 2 ^ e1 = ((m1 * 2 ^ e1 : Int) : ℚ) := by push_cast; rfl
    rw [hcast] at hne heq ⊢
    rw [habs, habs] at heq
    have hne' : m1 * 2 ^ e1 ≠ R := by
      intro h; apply hne; rw [h]
    have heq' : |m1 * 2 ^ e1 - P| = |R - P| := by
      have := (div_left_inj' hc.ne').mp heq
      exact_mod_cast this
    obtain ⟨me, hme, hR⟩ := htie m1 e1 hm1 hne' heq'
    refine ⟨me, hme, ?_⟩
    have hRq : (R : ℚ) = (me : ℚ) * (((m1 * 2 ^ e1 : Int) : ℚ) - (R : ℚ)) := by
      exact_mod_cast hR
    rw [← sub_div, ← mul_div_assoc, ← hRq]

/-- Rounding the exact product `E` (in quanta) of a clipped value and 32767:
the facts of `roundNearestEven_mul_quanta` together with the spacing at `E`
and the bounds that make the result a float64 no larger than 32767. -/
theorem round_scale_spec (E : Nat) (hE : E ≤ 32767 * F64.quanta) :
    ∃ m s, F64.roundNearestEven (E * F64.quanta) F64.quanta = m * 2 ^ s
      ∧ 2 * (m * 2 ^ s) ≤ 2 * E + 2 ^ s
      ∧ 2 * E ≤ 2 * (m * 2 ^ s) + 2 ^ s
      ∧ (s = 0 ∨ 2 ^ (s + 52) ≤ E)
      ∧ (2 * (m * 2 ^ s) = 2 * E + 2 ^ s ∨ 2 * E = 2 * (m * 2 ^ s) + 2 ^ s → m % 2 = 0)
      ∧ m ≤ 2 ^ 53 ∧ s ≤ 1036 ∧ m * 2 ^ s ≤ 32767 * F64.quanta := by
  obtain ⟨m, hr, h1, h2, ht⟩ := roundNearestEven_mul_quanta E
  obtain ⟨N, hN, hQN⟩ : ∃ N, N = 1074 ∧ F64.quanta = 2 ^ N := ⟨1074, rfl, quanta_eq⟩
  rcases Nat.eq_zero_or_pos E with h0 | hpos
  · subst h0
    have hs : F64.ilog2 0 - 52 = 0 := by decide
    rw [hs] at hr h1 h2 ht
    simp only [pow_zero, mul_one] at h1 h2 hr
    have hm : m = 0 := by omega
    subst hm
    exact ⟨0, 0, by simpa using hr, by simp, by simp, Or.inl rfl, fun _ => rfl,
      Nat.zero_le _, Nat.zero_le _, by simp⟩
  · obtain ⟨hlo, hhi⟩ := ilog2_spec E hpos
    generalize F64.ilog2 E = L at hr h1 h2 ht hlo hhi
    rw [hQN] at hE
    have hL : L < N + 15 := by
      have h1089 : (32767 : Nat) * 2 ^ N < 2 ^ (N + 15) := by
        rw [pow_add, Nat.mul_comm (2 ^ N)]
        exact Nat.mul_lt_mul_of_pos_right (by norm_num) (Nat.pow_pos (by norm_num))
      exact (Nat.pow_lt_pow_iff_right (by norm_num : 1 < 2)).mp
        (lt_of_le_of_lt hlo (lt_of_le_of_lt hE h1089))
    have hD : 0 < 2 ^ (L - 52) := Nat.pow_pos (by norm_num)
    have hs : L - 52 = 0 ∨ 2 ^ (L - 52 + 52) ≤ E := by
      by_cases h : L ≤ 52
      · left; omega
      · right
        have : L - 52 + 52 = L := by omega
        rw [this]; exact hlo
    have hEs : E < 2 ^ 53 * 2 ^ (L - 52) := by
      rw [← pow_add]
      exact lt_of_lt_of_le hhi (Nat.pow_le_pow_right (by norm_num) (by omega))
    have hm : m ≤ 2 ^ 53 := by
      have : 2 * m * 2 ^ (L - 52) < (2 * 2 ^ 53 + 1) * 2 ^ (L - 52) := by nlinarith
      have := Nat.lt_of_mul_lt_mul_right this
      omega
    have hQ : (2 : Nat) ^ N = 2 ^ (N - (L - 52)) * 2 ^ (L - 52) := by
      rw [← pow_add]
      exact congrArg (fun k => 2 ^ k) (by omega)
    have hr32 : m * 2 ^ (L - 52) ≤ 32767 * F64.quanta := by
      rw [hQN]
      rw [hQ, ← Nat.mul_assoc] at hE ⊢
      apply Nat.mul_le_mul_right
      have : 2 * m * 2 ^ (L - 52)
          < (2 * (32767 * 2 ^ (N - (L - 52))) + 2) * 2 ^ (L - 52) := by nlinarith
      have := Nat.lt_of_mul_lt_mul_right this
      omega
    exact ⟨m, L - 52, hr, h1, h2, hs, ht, hm, by omega, hr32⟩

/-! ## Playback: the channel integer against the arithmetic reference -/

theorem quanta_cast : ((F64.quanta : Nat) : ℚ) = 2 ^ 1074 := by
  rw [quanta_eq]; push_cast; rfl

theorem quanta_cast_int : ((F64.quanta : Int) : ℚ) = 2 ^ 1074 := by
  rw [Int.cast_natCast, quanta_cast]

theorem truncTowardZero_quanta (n : Int) :
    truncTowardZero ((n : ℚ) / 2 ^ 1074) = Int.tdiv n (F64.quanta : Int) := by
  have hc : (0 : ℚ) < 2 ^ 1074 := by positivity
  have hfl : ∀ a : Int, ⌊(a : ℚ) / 2 ^ 1074⌋ = a / (F64.quanta : Int) := by
    intro a
    rw [← quanta_cast]
    exact Rat.floor_intCast_div_natCast a F64.quanta
  unfold truncTowardZero
  by_cases h : 0 ≤ n
  · have hx : (0 : ℚ) ≤ (n : ℚ) / 2 ^ 1074 := div_nonneg (by exact_mod_cast h) hc.le
    rw [if_pos hx, hfl, Int.tdiv_eq_ediv h (Int.ofNat_nonneg _)]
  · have hn : n < 0 := lt_of_not_le h
    have hx : ¬ (0 : ℚ) ≤ (n : ℚ) / 2 ^ 1074 := by
      rw [not_le]
      exact div_neg_of_neg_of_pos (by exact_mod_cast hn) hc
    have hneg : (n : ℚ) / 2 ^ 1074 = -(((-n : Int) : ℚ) / 2 ^ 1074) := by
      push_cast; ring
    rw [if_neg hx, hneg, Int.ceil_neg, hfl,
      ← Int.tdiv_eq_ediv (by omega) (Int.ofNat_nonneg _), Int.neg_tdiv, neg_neg]

theorem specClippedValue_eq (v : F64) (x : ℚ) (h : specClippedValue v = some x) :
    ∃ kc : Int, specClip v = F64.fin kc ∧ -(F64.quanta : Int) ≤ kc ∧ kc ≤ (F64.quanta : Int)
      ∧ x = (kc : ℚ) / 2 ^ 1074 := by
  have hq := quanta_pos
  have hc : (0 : ℚ) < 2 ^ 1074 := by positivity
  have hqc := quanta_cast_int
  cases v with
  | nan => simp [specClippedValue] at h
  | ninf =>
    simp only [specClippedValue, Option.some.injEq] at h
    refine ⟨-1 * (F64.quanta : Int), specClip_ninf, by omega, by omega, ?_⟩
    rw [← h]; push_cast; rw [quanta_cast]; field_simp
  | pinf =>
    simp only [specClippedValue, Option.some.injEq] at h
    refine ⟨1 * (F64.quanta : Int), specClip_pinf, by omega, by omega, ?_⟩
    rw [← h]; push_cast; rw [quanta_cast]; field_simp
  | fin k =>
    simp only [specClippedValue, Option.some.injEq] at h
    rw [specClip_fin]
    by_cases h1 : k < -(F64.quanta : Int)
    · refine ⟨_, by rw [if_pos h1], le_refl _, by omega, ?_⟩
      have hk : (k : ℚ) / 2 ^ 1074 < -1 := by
        rw [div_lt_iff₀ hc, ← hqc]; exact_mod_cast (by omega : k < -1 * (F64.quanta : Int))
      rw [← h, specClipQ, max_eq_left hk.le, min_eq_right (by norm_num)]
      push_cast; rw [quanta_cast]; field_simp
    · by_cases h2 : (F64.quanta : Int) < k
      · refine ⟨_, by rw [if_neg h1, if_pos h2], by omega, le_refl _, ?_⟩
        have hk : 1 < (k : ℚ) / 2 ^ 1074 := by
          rw [lt_div_iff₀ hc, ← hqc]; exact_mod_cast (by omega : 1 * (F64.quanta : Int) < k)
        rw [← h, specClipQ, max_eq_right (by linarith), min_eq_left hk.le, hqc]
        field_simp
      · refine ⟨_, by rw [if_neg h1, if_neg h2], by omega, by omega, ?_⟩
        have hk1 : -1 ≤ (k : ℚ) / 2 ^ 1074 := by
          rw [le_div_iff₀ hc, ← hqc]; exact_mod_cast (by omega : -1 * (F64.quanta : Int) ≤ k)
        have hk2 : (k : ℚ) / 2 ^ 1074 ≤ 1 := by
          rw [div_le_iff₀ hc, ← hqc]; exact_mod_cast (by omega : k ≤ 1 * (F64.quanta : Int))
        rw [← h, specClipQ, max_eq_right hk1, min_eq_right hk2]

theorem mul_scale_eq (kc : Int) (h1 : -(F64.quanta : Int) ≤ kc) (h2 : kc ≤ (F64.quanta : Int)) :
    F64.mul (F64.fin kc) (F64.ofInt 32767)
      = F64.fin (if kc < 0
          then -((F64.roundNearestEven (kc.natAbs * 32767 * F64.quanta) F64.quanta : Nat) : Int)
          else ((F64.roundNearestEven (kc.natAbs * 32767 * F64.quanta) F64.quanta : Nat) : Int)) := by
  have hq := quanta_pos
  have hE : kc.natAbs * 32767 ≤ 32767 * F64.quanta := by
    have : kc.natAbs ≤ F64.quanta := by omega
    calc kc.natAbs * 32767 ≤ F64.quanta * 32767 := Nat.mul_le_mul_right _ this
      _ = 32767 * F64.quanta := Nat.mul_comm _ _
  obtain ⟨m, s, hr, _, _, _, _, _, _, hr32⟩ := round_scale_spec (kc.natAbs * 32767) hE
  have hov : ¬ F64.overflowAt ≤ F64.roundNearestEven (kc.natAbs * 32767 * F64.quanta) F64.quanta := by
    rw [hr, not_le]
    obtain ⟨N, hN, hQN⟩ : ∃ N, N = 1074 ∧ F64.quanta = 2 ^ N := ⟨1074, rfl, quanta_eq⟩
    obtain ⟨M, hM, hOM⟩ : ∃ M, M = 2098 ∧ F64.overflowAt = 2 ^ M := ⟨2098, rfl, overflowAt_eq⟩
    rw [hOM]
    rw [hQN] at hr32
    have h1089 : (32767 : Nat) * 2 ^ N < 2 ^ (N + 15) := by
      rw [pow_add, Nat.mul_comm (2 ^ N)]
      exact Nat.mul_lt_mul_of_pos_right (by norm_num) (Nat.pow_pos (by norm_num))
    exact lt_of_le_of_lt hr32 (lt_of_lt_of_le h1089
      (Nat.pow_le_pow_right (by norm_num) (by omega)))
  have hnat : (32767 * (F64.quanta : Int)).natAbs = 32767 * F64.quanta := by
    rw [Int.natAbs_mul]; rfl
  have hsign : decide (kc * (32767 * (F64.quanta : Int)) < 0) = decide (kc < 0) := by
    by_cases h : kc < 0
    · have : kc * (32767 * (F64.quanta : Int)) < 0 :=
        mul_neg_of_neg_of_pos h (by omega)
      simp [h, this]
    · have : ¬ kc * (32767 * (F64.quanta : Int)) < 0 :=
        not_lt.mpr (mul_nonneg (by omega) (by omega))
      simp [h, this]
  show F64.rounded (decide (kc * (32767 * (F64.quanta : Int)) < 0))
      (kc.natAbs * (32767 * (F64.quanta : Int)).natAbs) F64.quanta = _
  rw [hsign, hnat, ← Nat.mul_assoc]
  unfold F64.rounded
  simp only [hov, if_false]
  by_cases h : kc < 0 <;> simp [h]

theorem toInt16_fin_of_le (impl : F64 → Int) (R : Int) (r : Nat)
    (hR : R = (r : Int) ∨ R = -(r : Int)) (hr : r ≤ 32767 * F64.quanta) :
    F64.toInt16 impl (F64.fin R) = Int.tdiv R (F64.quanta : Int)
      ∧ -32768 ≤ Int.tdiv R (F64.quanta : Int) ∧ Int.tdiv R (F64.quanta : Int) ≤ 32767 := by
  have hd : r / F64.quanta ≤ 32767 :=
    Nat.div_le_of_le_mul (by rw [Nat.mul_comm]; exact hr)
  have ht : Int.tdiv (r : Int) (F64.quanta : Int) = ((r / F64.quanta : Nat) : Int) :=
    (Int.ofNat_tdiv r F64.quanta).symm
  have hb : -32768 ≤ Int.tdiv R (F64.quanta : Int) ∧ Int.tdiv R (F64.quanta : Int) ≤ 32767 := by
    generalize r / F64.quanta = d at hd ht
    rcases hR with h | h
    · rw [h, ht]; omega
    · rw [h, Int.neg_tdiv, ht]; omega
  refine ⟨?_, hb⟩
  simp only [F64.toInt16, hb.1, hb.2, and_self, if_true]

theorem representable_of_round (m s : Nat) (hm : m ≤ 2 ^ 53) (hs : s ≤ 1036) (sgn : Int)
    (hsgn : sgn = 1 ∨ sgn = -1) :
    ∃ (m1 : Int) (e : Nat), |m1| < 2 ^ 53 ∧ e ≤ 2045 ∧ sgn * ((m * 2 ^ s : Nat) : Int) = m1 * 2 ^ e := by
  rcases Nat.lt_or_ge m (2 ^ 53) with h | h
  · refine ⟨sgn * m, s, ?_, by omega, by push_cast; ring⟩
    rw [abs_mul]
    have : |sgn| = 1 := by rcases hsgn with h | h <;> rw [h] <;> rfl
    rw [this, one_mul, Nat.abs_cast]
    exact_mod_cast h
  · have hm53 : m = 2 ^ 53 := le_antisymm hm h
    refine ⟨sgn * 2 ^ 52, s + 1, ?_, by omega, ?_⟩
    · rw [abs_mul]
      have : |sgn| = 1 := by rcases hsgn with h | h <;> rw [h] <;> rfl
      rw [this, one_mul]
      norm_num
    · rw [hm53]; push_cast; ring

/-- The integer the code computes for a channel value is the arithmetic
reference: clip, multiply by 32767, round to the nearest float64 (ties to
even), truncate toward zero. -/
theorem valInt16_isSpec (impl : F64 → Int) (v : F64) : IsSpecInt16 v (valInt16 impl v) := by
  intro x hx
  obtain ⟨kc, hclip, hlo, hhi, hxq⟩ := specClippedValue_eq v x hx
  have hq := quanta_pos
  have hE : kc.natAbs * 32767 ≤ 32767 * F64.quanta := by
    have : kc.natAbs ≤ F64.quanta := by omega
    calc kc.natAbs * 32767 ≤ F64.quanta * 32767 := Nat.mul_le_mul_right _ this
      _ = 32767 * F64.quanta := Nat.mul_comm _ _
  obtain ⟨m, s, hr, h1, h2, hs, ht, hm, hs36, hr32⟩ := round_scale_spec (kc.natAbs * 32767) hE
  have hmul := mul_scale_eq kc hlo hhi
  rw [hr] at hmul
  have hp : x * 32767 = ((kc * 32767 : Int) : ℚ) / 2 ^ 1074 := by
    rw [hxq]; push_cast; ring
  rw [valInt16_eq, hclip, hmul, hp]
  by_cases hneg : kc < 0
  · rw [if_pos hneg]
    obtain ⟨hto, _, _⟩ := toInt16_fin_of_le impl (-((m * 2 ^ s : Nat) : Int)) (m * 2 ^ s)
      (Or.inr rfl) hr32
    refine ⟨((-((m * 2 ^ s : Nat) : Int) : Int) : ℚ) / 2 ^ 1074, ?_, ?_⟩
    · have hP : kc * 32767 = -((kc.natAbs * 32767 : Nat) : Int) := by
        have hk : (kc.natAbs : Int) = -kc := by omega
        rw [Nat.cast_mul, hk]; push_cast; ring
      rw [hP]
      apply isNearestEven_of_quanta
      · obtain ⟨m1, e, h53, he, heq⟩ := representable_of_round m s hm hs36 (-1) (Or.inr rfl)
        exact ⟨m1, e, h53, he, by rw [← heq]; ring⟩
      · intro m1 e1 hm1
        have := nearest_of_half_spacing (kc.natAbs * 32767) (m * 2 ^ s) m s rfl h1 h2 hs
          (-m1) e1 (by rwa [abs_neg])
        have e1' : |(-((m * 2 ^ s : Nat) : Int)) - -((kc.natAbs * 32767 : Nat) : Int)|
            = |((m * 2 ^ s : Nat) : Int) - ((kc.natAbs * 32767 : Nat) : Int)| := by
          rw [← abs_neg]; congr 1; ring
        have e2' : |m1 * 2 ^ e1 - -((kc.natAbs * 32767 : Nat) : Int)|
            = |-m1 * 2 ^ e1 - ((kc.natAbs * 32767 : Nat) : Int)| := by
          rw [← abs_neg]; congr 1; ring
        rw [e1', e2']; exact this
      · intro m1 e1 hm1 hne heq
        have e1' : |(-((m * 2 ^ s : Nat) : Int)) - -((kc.natAbs * 32767 : Nat) : Int)|
            = |((m * 2 ^ s : Nat) : Int) - ((kc.natAbs * 32767 : Nat) : Int)| := by
          rw [← abs_neg]; congr 1; ring
        have e2' : |m1 * 2 ^ e1 - -((kc.natAbs * 32767 : Nat) : Int)|
            = |-m1 * 2 ^ e1 - ((kc.natAbs * 32767 : Nat) : Int)| := by
          rw [← abs_neg]; congr 1; ring
        rw [e1', e2'] at heq
        obtain ⟨me, hme, hR⟩ := tie_even_of_half_spacing (kc.natAbs * 32767) (m * 2 ^ s) m s rfl
          h1 h2 hs ht (-m1) e1 (by rwa [abs_neg])
          (by intro h; apply hne; linarith) heq
        exact ⟨me, hme, by linarith⟩
    · rw [hto, truncTowardZero_quanta]
  · rw [if_neg hneg]
    obtain ⟨hto, _, _⟩ := toInt16_fin_of_le impl ((m * 2 ^ s : Nat) : Int) (m * 2 ^ s)
      (Or.inl rfl) hr32
    refine ⟨((((m * 2 ^ s : Nat) : Int) : Int) : ℚ) / 2 ^ 1074, ?_, ?_⟩
    · have hP : kc * 32767 = ((kc.natAbs * 32767 : Nat) : Int) := by
        have hk : (kc.natAbs : Int) = kc := by omega
        rw [Nat.cast_mul, hk]; push_cast; ring
      rw [hP]
      apply isNearestEven_of_quanta
      · obtain ⟨m1, e, h53, he, heq⟩ := representable_of_round m s hm hs36 1 (Or.inl rfl)
        exact ⟨m1, e, h53, he, by rw [← heq]; ring⟩
      · intro m1 e1 hm1
        exact nearest_of_half_spacing (kc.natAbs * 32767) (m * 2 ^ s) m s rfl h1 h2 hs m1 e1 hm1
      · intro m1 e1 hm1 hne heq
        exact tie_even_of_half_spacing (kc.natAbs * 32767) (m * 2 ^ s) m s rfl h1 h2 hs ht
          m1 e1 hm1 hne heq
    · rw [hto, truncTowardZero_quanta]

theorem toInt16_range (impl : F64 → Int) (x : F64) :
    -32768 ≤ F64.toInt16 impl x ∧ F64.toInt16 impl x ≤ 32767 := by
  have hw : ∀ z : Int, -32768 ≤ wrapInt16 z ∧ wrapInt16 z ≤ 32767 := by
    intro z; unfold wrapInt16; omega
  cases x with
  | fin k =>
    simp only [F64.toInt16]
    split_ifs with h
    · exact h
    · exact hw _
  | nan => exact hw _
  | ninf => exact hw _
  | pinf => exact hw _

theorem valInt16_range (impl : F64 → Int) (v : F64) :
    -32768 ≤ valInt16 impl v ∧ valInt16 impl v ≤ 32767 := by
  rw [valInt16_eq]
  exact toInt16_range impl _

/-- Where the exact product is itself a float64 nothing is lost in rounding:
the channel integer is the exact product truncated toward zero. -/
theorem isSpecInt16_exact (v : F64) (z : Int) (x : ℚ) (hz : IsSpecInt16 v z)
    (hx : specClippedValue v = some x) (hrep : IsF64 (x * 32767)) :
    specExactInt16 v = some z := by
  obtain ⟨y, ⟨_, hnear, _⟩, hzy⟩ := hz x hx
  have h0 := hnear (x * 32767) hrep
  rw [sub_self, abs_zero] at h0
  have hy : y = x * 32767 := by
    have := abs_eq_zero.mp (le_antisymm h0 (abs_nonneg _))
    linarith
  rw [specExactInt16, hx, Option.map_some', hzy, hy]

/-- The arithmetic reference determines the channel integer of every sample
that has a value. -/
theorem isSpecInt16_unique (v : F64) (z1 z2 : Int) (x : ℚ)
    (hx : specClippedValue v = some x) (h1 : IsSpecInt16 v z1) (h2 : IsSpecInt16 v z2) :
    z1 = z2 := by
  obtain ⟨y1, hn1, hz1⟩ := h1 x hx
  obtain ⟨y2, hn2, hz2⟩ := h2 x hx
  rw [hz1, hz2, isNearestEven_unique _ y1 y2 hn1 hn2]

/-! ## Claims about playback -/

/-- C1.  The claim fails on the code: with `bufferSize = 1`, an empty
carry-over buffer and a request for 2 frames (8 bytes), the single refill
leaves 4 bytes and the callback ends in a slice-bounds panic, whatever the
mixer delivers, whatever the spare capacity of the buffer and whatever the
output slot. -/
theorem onSamples_panics_after_short_refill (impl : F64 → Int) (mixOut : Nat → Sample)
    (spare pOutputSample : List Byte) :
    onSamples impl 1 mixOut spare pOutputSample [] 2 = none := by
  rw [onSamples, deliver_eq_none_iff]
  have h : byteCount 2 = 8 := by decide
  simp [refill, h, update_length]

/-- C2.  The device-format conversion clips to `[-1, 1]` before scaling: the
bytes emitted for `v` are the bytes emitted for `min(1, max(-1, v))`, one
`update()` on a mixer buffer equals `update()` on the clipped buffer, and the
sample `(2.0, -3.0)` yields the four bytes of `(1.0, -1.0)`, which are
`FF 7F 01 80`. -/
theorem update_clips_before_scaling (impl : F64 → Int) (v : F64) (bufferSize : Nat)
    (mixOut : Nat → Sample) (buf : List Byte) :
    encodeVal impl v = encodeVal impl (specClip v)
    ∧ update impl bufferSize mixOut buf
        = update impl bufferSize (fun i => (specClip (mixOut i).1, specClip (mixOut i).2)) buf
    ∧ update impl 1 (fun _ => (F64.ofInt 2, F64.ofInt (-3))) []
        = update impl 1 (fun _ => (F64.ofInt 1, F64.ofInt (-1))) []
    ∧ update impl 1 (fun _ => (F64.ofInt 1, F64.ofInt (-1))) [] = [255, 127, 1, 128] := by
  have h2 : specClip (F64.ofInt 2) = F64.ofInt 1 := by decide!
  have h3 : specClip (F64.ofInt (-3)) = F64.ofInt (-1) := by decide!
  refine ⟨(encodeVal_specClip impl v).symm, ?_, ?_, ?_⟩
  · simp only [update_eq_flatMap, encodeVal_specClip]
  · rw [update_eq_flatMap, update_eq_flatMap]
    rw [← encodeVal_specClip impl (F64.ofInt 2), ← encodeVal_specClip impl (F64.ofInt (-3)),
      h2, h3]
  · rw [update_eq_flatMap, range_one]
    simp [encodeVal_one, encodeVal_negOne]

/-- C3, counterexample.  For the sample value `35185445863425 * 2^(-60)` the
exact product with 32767 is `1 - 2^(-60)` and truncates to 0, which would be
encoded `00 00`; the float64 product rounds to `1.0`, and `update()` emits
`01 00` for each channel. -/
theorem update_rounds_before_truncating :
    specExactInt16 (F64.fin (35185445863425 * 2 ^ 1014)) = some 0
    ∧ le16 (twosComplement16 0) = [0, 0]
    ∧ update (fun _ => 0) 1
        (fun _ => (F64.fin (35185445863425 * 2 ^ 1014), F64.fin (35185445863425 * 2 ^ 1014))) []
      = [1, 0, 1, 0] := by
  refine ⟨?_, by decide, by decide!⟩
  have hx : ((35185445863425 * 2 ^ 1014 : Int) : ℚ) / 2 ^ 1074 = 35185445863425 / 2 ^ 60 := by
    have h : (2 : ℚ) ^ 1074 = 2 ^ 60 * 2 ^ 1014 := by rw [← pow_add]
    have hp : (2 : ℚ) ^ 1014 ≠ 0 := by positivity
    push_cast
    rw [h, mul_div_mul_right _ _ hp]
  have hclip : specClipQ (35185445863425 / 2 ^ 60) = 35185445863425 / 2 ^ 60 := by
    rw [specClipQ, max_eq_right (by norm_num), min_eq_right (by norm_num)]
  have hfloor : ⌊(35185445863425 / 2 ^ 60 * 32767 : ℚ)⌋ = 0 := by
    rw [Int.floor_eq_zero_iff]
    constructor <;> norm_num
  simp only [specExactInt16, specClippedValue, Option.map_some', hx, hclip, truncTowardZero]
  rw [if_pos (by norm_num), hfloor]

/-- C3, amended.  One `update()` leaves the bytes already buffered in place
and appends, in sample order, 4 bytes per mixed sample: the low and high byte
of the left integer, then of the right integer, each integer written as a
two's-complement signed 16-bit little-endian number.  Each integer lies in the
signed 16-bit range and, for a sample value that is not NaN, is the clipped
value multiplied by 32767, rounded to the nearest float64 (ties to even) and
truncated toward zero.  The buffer grows by exactly `4 * bufferSize`. -/
theorem update_appends_s16le_frames (impl : F64 → Int) (bufferSize : Nat)
    (mixOut : Nat → Sample) (buf : List Byte) :
    ∃ ints : Nat → Int × Int,
      (∀ i, IsSpecInt16 (mixOut i).1 (ints i).1 ∧ IsSpecInt16 (mixOut i).2 (ints i).2
        ∧ -32768 ≤ (ints i).1 ∧ (ints i).1 ≤ 32767
        ∧ -32768 ≤ (ints i).2 ∧ (ints i).2 ≤ 32767)
      ∧ update impl bufferSize mixOut buf
          = buf ++ (List.range bufferSize).flatMap
              (fun i => le16 (twosComplement16 (ints i).1) ++ le16 (twosComplement16 (ints i).2))
      ∧ (∀ w, (le16 w).length = 2)
      ∧ (update impl bufferSize mixOut buf).length = buf.length + 4 * bufferSize
      ∧ (update impl bufferSize mixOut buf).take buf.length = buf := by
  refine ⟨fun i => (valInt16 impl (mixOut i).1, valInt16 impl (mixOut i).2), ?_, ?_,
    fun _ => rfl, update_length impl bufferSize mixOut buf, ?_⟩
  · intro i
    exact ⟨valInt16_isSpec impl _, valInt16_isSpec impl _,
      (valInt16_range impl _).1, (valInt16_range impl _).2,
      (valInt16_range impl _).1, (valInt16_range impl _).2⟩
  · rw [update_eq_flatMap]
    simp only [encodeVal_eq_val]
  · rw [update_eq_flatMap]
    simp

/-- C4, counterexample.  A request for `2^30` frames is a request for `2^32`
bytes, more than the empty carry-over buffer holds, yet the callback makes no
mixer pull: its 32-bit byte count has wrapped to 0. -/
theorem refill_wraps_at_two_pow_30 :
    ([] : List Byte).length < 4 * 2 ^ 30
    ∧ refill (fun _ => 0) 1 (fun _ => (F64.fin 0, F64.fin 0)) [] (2 ^ 30) = ([], 0) := by
  have h : byteCount (2 ^ 30) = 0 := by decide
  refine ⟨by decide, ?_⟩
  unfold refill
  rw [h]
  rfl

/-- C4, amended.  For a request of `f < 2^30` frames (so that the 32-bit byte
count is `4 * f`): no mixer pull happens when the carry-over buffer `buf`
holds `4 * f` bytes, otherwise exactly one `update()` is appended; and when
the resulting buffer and the output slot both have `4 * f` bytes, the slot
receives the first `4 * f` bytes of the buffer (its remainder untouched) and
the rest of the buffer, in order, is the new carry-over buffer. -/
theorem onSamples_delivers_prefix (impl : F64 → Int) (bufferSize : Nat)
    (mixOut : Nat → Sample) (spare pOutputSample buf : List Byte) (f : Nat)
    (hf : f < 2 ^ 30) :
    (refill impl bufferSize mixOut buf f).2 = (if 4 * f ≤ buf.length then 0 else 1)
    ∧ (refill impl bufferSize mixOut buf f).1
        = (if 4 * f ≤ buf.length then buf else update impl bufferSize mixOut buf)
    ∧ (4 * f ≤ (refill impl bufferSize mixOut buf f).1.length →
        4 * f ≤ pOutputSample.length →
        onSamples impl bufferSize mixOut spare pOutputSample buf f
          = some ((refill impl bufferSize mixOut buf f).1.take (4 * f)
                    ++ pOutputSample.drop (4 * f),
                  (refill impl bufferSize mixOut buf f).1.drop (4 * f))) := by
  have hb := byteCount_of_lt f hf
  refine ⟨?_, ?_, ?_⟩
  · unfold refill
    rw [hb]
    by_cases h : 4 * f ≤ buf.length
    · simp [h, Nat.not_lt.mpr h]
    · simp [h, Nat.lt_of_not_le h]
  · unfold refill
    rw [hb]
    by_cases h : 4 * f ≤ buf.length
    · simp [h, Nat.not_lt.mpr h]
    · simp [h, Nat.lt_of_not_le h]
  · intro h1 h2
    rw [onSamples, hb, deliver_of_le _ _ _ _ h1 h2]

/-- C4, witness: one frame requested on an empty buffer with `bufferSize = 1`
and a silent mixer. -/
theorem onSamples_delivers_prefix_witness :
    (1 : Nat) < 2 ^ 30
    ∧ (refill (fun _ => 0) 1 (fun _ => (F64.fin 0, F64.fin 0)) [] 1).2 = 1
    ∧ onSamples (fun _ => 0) 1 (fun _ => (F64.fin 0, F64.fin 0)) [] [9, 9, 9, 9, 9] [] 1
        = some ([0, 0, 0, 0, 9], []) := by
  have h := onSamples_delivers_prefix (fun _ => 0) 1 (fun _ => (F64.fin 0, F64.fin 0))
    [] [9, 9, 9, 9, 9] [] 1 (by decide)
  have hz : encodeVal (fun _ => 0) (F64.fin 0) = [0, 0] := by decide!
  have hu : update (fun _ => 0) 1 (fun _ => (F64.fin 0, F64.fin 0)) [] = [0, 0, 0, 0] := by
    rw [update_eq_flatMap, range_one]
    simp [hz]
  have hr : (refill (fun _ => 0) 1 (fun _ => (F64.fin 0, F64.fin 0)) [] 1).1 = [0, 0, 0, 0] := by
    rw [h.2.1]
    simp [hu]
  refine ⟨by decide, ?_, ?_⟩
  · rw [h.1]
    simp
  · rw [h.2.2 (by rw [hr]; simp) (by simp), hr]
    simp

/-! ## Capture: decoding lemmas -/

theorem pcm16_eq_specLE16 (b0 b1 : Byte) : pcm16 b0 b1 = specLE16 b0 b1 := by
  have h0 := b0.isLt
  have h1 := b1.isLt
  unfold pcm16 specLE16 wrapInt16
  have h : ((2 : Int) ^ 8) = 256 := by norm_num
  rw [h]
  split_ifs <;> omega

theorem getElem_eq_getD_of_lt (buf : List Byte) (k : Nat) (h : k < buf.length) :
    buf[k]? = some (buf.getD k 0) := by
  simp [List.getD, List.getElem?_eq_getElem h]

/-- The mono loop runs to completion on a buffer holding two bytes for each
remaining sample, and writes frame `j` from the byte pair at `2(i+j)`,
identically to both channels, as long as the countdown has not stopped it. -/
theorem monoLoop_spec (buf : List Byte) :
    ∀ (rest : List Sample) (i : Nat) (count : Int),
      2 * (i + rest.length) ≤ buf.length →
      ∃ out, monoLoop buf i count rest = some out ∧ out.length = rest.length ∧
        ∀ j, j < rest.length → (count ≤ 0 ∨ (j : Int) < count) →
          out[j]? = some (normalise (pcm16 (buf.getD (2 * (i + j)) 0) (buf.getD (2 * (i + j) + 1) 0)),
                          normalise (pcm16 (buf.getD (2 * (i + j)) 0) (buf.getD (2 * (i + j) + 1) 0))) := by
  intro rest
  induction rest with
  | nil => intro i count _; exact ⟨[], rfl, rfl, fun j hj => absurd hj (by simp)⟩
  | cons s rest ih =>
    intro i count hlen
    simp only [List.length_cons] at hlen
    have e1 : buf[i * 2]? = some (buf.getD (2 * (i + 0)) 0) := by
      rw [getElem_eq_getD_of_lt buf (i * 2) (by omega)]; congr 2; omega
    have e2 : buf[i * 2 + 1]? = some (buf.getD (2 * (i + 0) + 1) 0) := by
      rw [getElem_eq_getD_of_lt buf (i * 2 + 1) (by omega)]; congr 2; omega
    by_cases hc : count - 1 = 0
    · refine ⟨_, by simp [monoLoop, e1, e2, hc]; rfl, by simp, ?_⟩
      intro j hj hcount
      have hj0 : j = 0 := by omega
      subst hj0
      simp
    · obtain ⟨out, hout, hl, hspec⟩ := ih (i + 1) (count - 1) (by omega)
      refine ⟨_, by simp [monoLoop, e1, e2, hc, hout]; rfl, by simp [hl], ?_⟩
      intro j hj hcount
      cases j with
      | zero => simp
      | succ j =>
        simp only [List.length_cons] at hj
        have h := hspec j (by omega) (by omega)
        have ha : 2 * (i + 1 + j) = 2 * (i + (j + 1)) := by omega
        rw [ha] at h
        simpa using h


theorem Stream_mono_frame (ring : List Byte) (samples : List Sample) (i : Nat) (b0 b1 : Byte)
    (h0 : ring[2 * i]? = some b0) (h1 : ring[2 * i + 1]? = some b1)
    (hi : i < samples.length) :
    ∃ r, Stream 1 ring samples = some r ∧
      r.samples[i]? = some (normalise (pcm16 b0 b1), normalise (pcm16 b0 b1)) := by
  obtain ⟨hlt1, hget1⟩ := List.getElem?_eq_some_iff.mp h1
  obtain ⟨hlt0, hget0⟩ := List.getElem?_eq_some_iff.mp h0
  set n := Nat.min (List.replicate (1 * samples.length * 2) (0 : Byte)).length ring.length with hn
  have hn2 : n = Nat.min (samples.length * 2) ring.length := by simp [hn]
  have hnle : n ≤ samples.length * 2 := by rw [hn2]; exact Nat.min_le_left _ _
  have hnle2 : n ≤ ring.length := by rw [hn2]; exact Nat.min_le_right _ _
  have hin : 2 * i + 1 < n := by
    rw [hn2]; exact Nat.lt_min.mpr ⟨by omega, hlt1⟩
  set buf := goCopy (List.replicate (1 * samples.length * 2) (0 : Byte)) (ring.take n) with hbuf
  have htl : (ring.take n).length = n := by simp [hnle2]
  have hbufeq : buf = ring.take n ++ (List.replicate (1 * samples.length * 2) (0 : Byte)).drop n := by
    rw [hbuf, goCopy_of_le _ _ (by simp; omega), htl]
  have hbuflen : buf.length = samples.length * 2 := by
    rw [hbufeq]; simp; omega
  have hread : ReadAndMaybeAdvance ring (List.replicate (1 * samples.length * 2) (0 : Byte))
      = some (n, buf, ring.drop n) := by
    unfold ReadAndMaybeAdvance
    have hp : (List.replicate (1 * samples.length * 2) (0 : Byte)).length ≠ 0 := by
      rw [List.length_replicate]; omega
    have hr : ring.length ≠ 0 := by omega
    simp only [hp, hr, if_false]
  obtain ⟨out, hout, _, hspec⟩ := monoLoop_spec buf samples 0
    (if (n : Int) < (samples.length : Int) then (n : Int) else (samples.length : Int))
    (by omega)
  have hcount : (i : Int) < (if (n : Int) < (samples.length : Int) then (n : Int)
      else (samples.length : Int)) := by
    split_ifs <;> omega
  have hframe := hspec i hi (Or.inr hcount)
  have g0 : buf.getD (2 * (0 + i)) 0 = b0 := by
    rw [hbufeq, List.getD_eq_getElem?_getD, List.getElem?_append_left (by rw [htl]; omega)]
    rw [List.getElem?_take_of_lt (by omega)]
    simp [h0]
  have g1 : buf.getD (2 * (0 + i) + 1) 0 = b1 := by
    rw [hbufeq, List.getD_eq_getElem?_getD, List.getElem?_append_left (by rw [htl]; omega)]
    rw [List.getElem?_take_of_lt (by omega)]
    simp [h1]
  rw [g0, g1] at hframe
  refine ⟨{ n := if (n : Int) < (samples.length : Int) then (n : Int) else (samples.length : Int),
            ok := true, samples := out, ring := ring.drop n }, ?_, hframe⟩
  unfold Stream
  simp only [hread, if_true, hout, Option.map_some']

/-! ## Capture: the handshake -/

theorem onCapSamples_spec (s s1 : CaptureState) (p : List Byte) (f : Nat)
    (h : onCapSamples s p f = some s1) :
    s1.more = false
    ∧ s1.trace = s.trace ++ (if s.more then [CapEvent.clearMore, CapEvent.sendReady] else [])
    ∧ s1.consumer = (if s.more ∧ s.consumer = ConsumerAt.parked then ConsumerAt.reading
                     else s.consumer) := by
  simp only [onCapSamples] at h
  split_ifs at h with h1 h2 h3
  · simp only [Option.some.injEq] at h
    subst h
    simp [h2, h3]
  · simp only [Option.some.injEq] at h
    subst h
    simp [h2, h3]
  · simp only [Option.some.injEq] at h
    subst h
    simp [h2]

theorem capStep_inv (s s1 : CaptureState) (a : CapAction) (hs : s.Inv)
    (h : capStep s a = some s1) : s1.Inv := by
  obtain ⟨hcnt, hmore⟩ := hs
  cases a with
  | produce p f =>
    obtain ⟨hm, ht, hc⟩ := onCapSamples_spec s s1 p f h
    unfold CaptureState.Inv CaptureState.sent CaptureState.waits at *
    rw [hm, ht, hc]
    by_cases hmo : s.more = true
    · have hp := hmore.mp hmo
      simp [hmo, hp, List.count_append] at hcnt ⊢
      omega
    · simp [hmo] at hcnt hmore ⊢
      exact ⟨hcnt, hmore⟩
  | enter =>
    simp only [capStep] at h
    split_ifs at h with h1
    simp only [Option.some.injEq] at h
    subst h
    have hmo : s.more = false := by
      cases hm : s.more
      · rfl
      · rw [hmore.mp hm] at h1; cases h1
    unfold CaptureState.Inv CaptureState.sent CaptureState.waits streamEnter at *
    by_cases hr : s.ring.length = 0
    · simp [hr, hmo, List.count_append] at hcnt ⊢
      omega
    · simp [hr, hmo] at hcnt ⊢
      exact hcnt
  | read samples =>
    simp only [capStep] at h
    split_ifs at h with h1
    have hmo : s.more = false := by
      cases hm : s.more
      · rfl
      · rw [hmore.mp hm] at h1; cases h1
    cases hst : Stream s.channels s.ring samples with
    | none => rw [hst] at h; cases h
    | some r =>
      rw [hst] at h
      simp only [Option.map_some', Option.some.injEq] at h
      subst h
      unfold CaptureState.Inv CaptureState.sent CaptureState.waits at *
      simp [hmo] at hcnt ⊢
      exact hcnt

theorem capRun_inv (acts : List CapAction) :
    ∀ (s0 s : CaptureState), s0.Inv → capRun s0 acts = some s → s.Inv := by
  induction acts with
  | nil =>
    intro s0 s h0 h
    simp only [capRun, Option.some.injEq] at h
    exact h ▸ h0
  | cons a rest ih =>
    intro s0 s h0 h
    simp only [capRun] at h
    cases hstep : capStep s0 a with
    | none => rw [hstep] at h; cases h
    | some s1 =>
      rw [hstep] at h
      exact ih s1 s (capStep_inv s0 s1 a h0 hstep) h

theorem init_inv (bufferSize numChannels : Nat) :
    (CaptureState.init bufferSize numChannels).Inv := by
  simp [CaptureState.Inv, CaptureState.init, CaptureState.sent, CaptureState.waits]

theorem more_raised_only_by_enter (s s1 : CaptureState) (a : CapAction)
    (h : capStep s a = some s1) (h0 : s.more = false) (h1 : s1.more = true) :
    a = CapAction.enter ∧ s.ring = [] := by
  cases a with
  | produce p f =>
    have hm := (onCapSamples_spec s s1 p f h).1
    rw [hm] at h1; cases h1
  | enter =>
    simp only [capStep] at h
    split_ifs at h with hc
    simp only [Option.some.injEq] at h
    subst h
    unfold streamEnter at h1
    by_cases hr : s.ring.length = 0
    · exact ⟨rfl, List.length_eq_zero.mp hr⟩
    · simp [hr, h0] at h1
  | read samples =>
    simp only [capStep] at h
    split_ifs at h with hc
    cases hst : Stream s.channels s.ring samples with
    | none => rw [hst] at h; cases h
    | some r =>
      rw [hst] at h
      simp only [Option.map_some', Option.some.injEq] at h
      subst h
      simp [h0] at h1

/-! ## Claims about capture and teardown -/

/-- C5.  The claim fails on the code: a mono `Stream` call on a buffer of 4
samples, with 4 bytes (two frames) in the ring, returns `(4, true)`, not
`(2, true)`: the number of bytes read is compared with, and returned as, a
number of frames.  Samples 2 and 3 are overwritten with the decoding of the
zero padding of the read buffer. -/
theorem Stream_counts_bytes_as_frames :
    Stream 1 [0, 64, 0, 64] (List.replicate 4 (F64.ofInt 1, F64.ofInt 1))
      = some { n := 4, ok := true,
               samples := [(normalise 16384, normalise 16384), (normalise 16384, normalise 16384),
                           (F64.fin 0, F64.fin 0), (F64.fin 0, F64.fin 0)],
               ring := [] }
    ∧ ([0, 64, 0, 64] : List Byte).length / (2 * 1) = 2 := by
  decide!

/-- C6.  The claim fails on the code: in stereo mode the right value of a
frame is computed from byte `4i+1` taken twice, not from bytes `4i+2` and
`4i+3`.  On the frame `01 02 03 04` the right sample is `normalise 514`
(`0x0202`), whereas bytes `03 04` are the little-endian sample 1027. -/
theorem Stream_stereo_right_reuses_byte_one :
    Stream 2 [1, 2, 3, 4] [(F64.fin 0, F64.fin 0)]
      = some { n := 1, ok := true, samples := [(normalise 513, normalise 514)], ring := [] }
    ∧ specLE16 3 4 = 1027
    ∧ normalise 514 ≠ normalise 1027 := by
  decide!

theorem toRat_fin (k : Int) : (F64.fin k).toRatOpt = some ((k : ℚ) / ((2 : ℚ) ^ 1074)) := by
  simp [F64.toRatOpt, F64.quanta]

/-- C7.  The claim fails on the code: the divisor is `1<<16 - 1 = 65535`, not
the signed full scale 32767.  In mono mode the bytes `00 40` decode to a value
between 0.25 and 0.26, written to both channels, and the full-scale sample
32767 decodes to less than 0.51. -/
theorem Stream_mono_normalises_by_65535 :
    Stream 1 [0x00, 0x40] [(F64.fin 0, F64.fin 0)]
      = some { n := 1, ok := true, samples := [(normalise 16384, normalise 16384)], ring := [] }
    ∧ (∃ q : ℚ, (normalise 16384).toRatOpt = some q ∧ 1 / 4 < q ∧ q < 26 / 100)
    ∧ (∃ q : ℚ, (normalise 32767).toRatOpt = some q ∧ q < 51 / 100) := by
  have h1 : normalise 16384 = F64.fin (4503668347895824 * 2 ^ 1020) := by decide!
  have h2 : normalise 32767 = F64.fin (9007061813690336 * 2 ^ 1020) := by decide!
  refine ⟨by decide!, ⟨_, by rw [h1, toRat_fin], ?_, ?_⟩, ⟨_, by rw [h2, toRat_fin], ?_⟩⟩
  · rw [lt_div_iff₀ (by positivity)]
    push_cast
    have : (2 : ℚ) ^ 1074 = 2 ^ 54 * 2 ^ 1020 := by rw [← pow_add]
    rw [this]
    have hp : (0 : ℚ) < 2 ^ 1020 := by positivity
    nlinarith
  · rw [div_lt_iff₀ (by positivity)]
    push_cast
    have : (2 : ℚ) ^ 1074 = 2 ^ 54 * 2 ^ 1020 := by rw [← pow_add]
    rw [this]
    have hp : (0 : ℚ) < 2 ^ 1020 := by positivity
    nlinarith
  · rw [div_lt_iff₀ (by positivity)]
    push_cast
    have : (2 : ℚ) ^ 1074 = 2 ^ 54 * 2 ^ 1020 := by rw [← pow_add]
    rw [this]
    have hp : (0 : ℚ) < 2 ^ 1020 := by positivity
    nlinarith

/-- C8.  In mono mode, for a byte pair `(b0, b1)` at offsets `2i` and `2i+1`
of the data in the ring, with `i` inside the sample buffer: the integer the
code computes in wrapping 16-bit arithmetic is the two's-complement
little-endian value of the pair, `Stream` returns, and the sample derived
from that value is written to both the left and the right of frame `i`. -/
theorem Stream_mono_decodes_le16 (ring : List Byte) (samples : List Sample) (i : Nat)
    (b0 b1 : Byte) (h0 : ring[2 * i]? = some b0) (h1 : ring[2 * i + 1]? = some b1)
    (hi : i < samples.length) :
    pcm16 b0 b1 = specLE16 b0 b1
    ∧ ∃ r, Stream 1 ring samples = some r ∧
        r.samples[i]? = some (normalise (specLE16 b0 b1), normalise (specLE16 b0 b1)) := by
  refine ⟨pcm16_eq_specLE16 b0 b1, ?_⟩
  rw [← pcm16_eq_specLE16]
  exact Stream_mono_frame ring samples i b0 b1 h0 h1 hi

/-- C8, witness: the second frame of the ring `00 40 01 80`, the sample
-32767. -/
theorem Stream_mono_decodes_le16_witness :
    specLE16 1 128 = -32767
    ∧ ∃ r, Stream 1 [0, 64, 1, 128] [(F64.fin 0, F64.fin 0), (F64.fin 0, F64.fin 0)] = some r ∧
        r.samples[1]? = some (normalise (specLE16 1 128), normalise (specLE16 1 128)) :=
  ⟨by decide,
   (Stream_mono_decodes_le16 [0, 64, 1, 128] [(F64.fin 0, F64.fin 0), (F64.fin 0, F64.fin 0)]
      1 1 128 rfl rfl (by decide)).2⟩

/-- C9.  `Close` on a state with no player device changes nothing and logs no
device operation; on every state a second `Close` changes nothing more, and
the player handle is cleared afterwards. -/
theorem Close_idempotent (s : Engine) (done : Option Nat) (ops : List DeviceOp) :
    Close { player := none, done := done, ops := ops }
      = { player := none, done := done, ops := ops }
    ∧ Close (Close s) = Close s
    ∧ (Close s).player = none := by
  refine ⟨rfl, ?_, ?_⟩
  · obtain ⟨p, d, o⟩ := s
    cases p <;> cases d <;> rfl
  · obtain ⟨p, d, o⟩ := s
    cases p <;> cases d <;> rfl

/-- C10.  In every state `s` reached from the initial state of the adapter by
producer callbacks, consumer entries into `Stream` and consumer reads: the
number of ready signals sent, plus one if the flag is raised, is the number of
waits begun, and the flag is raised exactly while the consumer is blocked; a
producer callback from `s` emits "clear flag, then send" if the flag is set
and nothing otherwise, and leaves the flag cleared; and a move that raises
the flag is a consumer entry that found the ring empty. -/
theorem capture_handshake (bufferSize numChannels : Nat) (acts : List CapAction)
    (s : CaptureState)
    (h : capRun (CaptureState.init bufferSize numChannels) acts = some s) :
    s.sent + (if s.more then 1 else 0) = s.waits
    ∧ (s.more = true ↔ s.consumer = ConsumerAt.parked)
    ∧ (∀ p f s1, onCapSamples s p f = some s1 →
        s1.more = false
        ∧ s1.trace = s.trace ++ (if s.more then [CapEvent.clearMore, CapEvent.sendReady] else [])
        ∧ s1.sent = s.sent + (if s.more then 1 else 0)
        ∧ s1.waits = s.waits
        ∧ s1.sent = s1.waits)
    ∧ (∀ a s1, capStep s a = some s1 → s.more = false → s1.more = true →
        a = CapAction.enter ∧ s.ring = []) := by
  obtain ⟨hcnt, hmore⟩ := capRun_inv acts _ s (init_inv bufferSize numChannels) h
  refine ⟨hcnt, hmore, ?_, ?_⟩
  · intro p f s1 hs
    obtain ⟨hm, ht, _⟩ := onCapSamples_spec s s1 p f hs
    have hsent : s1.sent = s.sent + (if s.more then 1 else 0) := by
      unfold CaptureState.sent
      rw [ht]
      by_cases hmo : s.more = true <;> simp [hmo, List.count_append]
    have hwaits : s1.waits = s.waits := by
      unfold CaptureState.waits
      rw [ht]
      by_cases hmo : s.more = true <;> simp [hmo, List.count_append]
    exact ⟨hm, ht, hsent, hwaits, by rw [hsent, hwaits, hcnt]⟩
  · intro a s1 hs h0 h1
    exact more_raised_only_by_enter s s1 a hs h0 h1

/-- C10, witness: a mono adapter; the consumer enters `Stream` on the empty
ring and blocks, a producer callback delivers one frame and signals once, a
second callback with nobody waiting signals nothing. -/
theorem capture_handshake_witness :
    capRun (CaptureState.init 8 1)
        [CapAction.enter, CapAction.produce [0, 64] 1, CapAction.produce [1, 128] 1]
      = some { channels := 1, capacity := 8, ring := [0, 64, 1, 128], more := false,
               consumer := ConsumerAt.reading,
               trace := [CapEvent.waitBegin, CapEvent.clearMore, CapEvent.sendReady] }
    ∧ (1 : Nat) + 0 = 1 :=
  have hrun : capRun (CaptureState.init 8 1)
        [CapAction.enter, CapAction.produce [0, 64] 1, CapAction.produce [1, 128] 1]
      = some { channels := 1, capacity := 8, ring := [0, 64, 1, 128], more := false,
               consumer := ConsumerAt.reading,
               trace := [CapEvent.waitBegin, CapEvent.clearMore, CapEvent.sendReady] } := by
    decide
  ⟨hrun, (capture_handshake 8 1 _ _ hrun).1⟩

/-! ## Playback: the carry-over buffer across callbacks -/

theorem byteCount_mod_four (f : Nat) : byteCount f % 4 = 0 := by
  rw [byteCount_eq]
  omega

theorem onSamples_eq_some (impl : F64 → Int) (bufferSize : Nat) (mixOut : Nat → Sample)
    (spare pOutputSample buf out buf1 : List Byte) (f : Nat)
    (h : onSamples impl bufferSize mixOut spare pOutputSample buf f = some (out, buf1)) :
    byteCount f ≤ (refill impl bufferSize mixOut buf f).1.length
    ∧ buf1 = (refill impl bufferSize mixOut buf f).1.drop (byteCount f) := by
  simp only [onSamples, deliver] at h
  split_ifs at h with h1 h2
  simp only [Option.some.injEq, Prod.mk.injEq] at h
  exact ⟨h2, h.2.symm⟩

theorem refill_length (impl : F64 → Int) (bufferSize : Nat) (mixOut : Nat → Sample)
    (buf : List Byte) (f : Nat) :
    (refill impl bufferSize mixOut buf f).1.length
      = if buf.length < byteCount f then buf.length + 4 * bufferSize else buf.length := by
  unfold refill
  split_ifs <;> simp [update_length]

/-- One completed callback keeps the carry-over length a multiple of 4 and
below `4 * bufferSize`. -/
theorem onSamples_carry_inv (impl : F64 → Int) (bufferSize : Nat) (mixOut : Nat → Sample)
    (spare pOutputSample buf out buf1 : List Byte) (f : Nat)
    (h4 : buf.length % 4 = 0) (hlt : buf.length < 4 * bufferSize)
    (h : onSamples impl bufferSize mixOut spare pOutputSample buf f = some (out, buf1)) :
    buf1.length % 4 = 0 ∧ buf1.length < 4 * bufferSize := by
  obtain ⟨hle, hb⟩ := onSamples_eq_some impl bufferSize mixOut spare pOutputSample buf out buf1 f h
  have hn := byteCount_mod_four f
  rw [hb, List.length_drop]
  rw [refill_length] at hle ⊢
  split_ifs at hle ⊢ <;> omega

theorem runCallbacks_carry_inv (impl : F64 → Int) (bufferSize : Nat) (calls : List Callback) :
    ∀ (buf buf1 : List Byte), buf.length % 4 = 0 → buf.length < 4 * bufferSize →
      runCallbacks impl bufferSize buf calls = some buf1 →
      buf1.length % 4 = 0 ∧ buf1.length < 4 * bufferSize := by
  induction calls with
  | nil =>
    intro buf buf1 h4 hlt h
    simp only [runCallbacks, Option.some.injEq] at h
    subst h
    exact ⟨h4, hlt⟩
  | cons c rest ih =>
    intro buf buf1 h4 hlt h
    simp only [runCallbacks] at h
    cases hc : onSamples impl bufferSize c.mixOut c.spare c.pOutputSample buf c.framecount with
    | none => rw [hc] at h; cases h
    | some r =>
      obtain ⟨out, buf2⟩ := r
      rw [hc] at h
      obtain ⟨h4a, hlta⟩ := onSamples_carry_inv impl bufferSize c.mixOut c.spare c.pOutputSample
        buf out buf2 c.framecount h4 hlt hc
      exact ih buf2 buf1 h4a hlta h

/-- A sequence of callbacks each asking for at most `bufferSize` frames (and
fewer than `2^30`), with an output slot of the requested size, runs to
completion from any carry-over buffer shorter than `4 * bufferSize`. -/
theorem runCallbacks_completes (impl : F64 → Int) (bufferSize : Nat) (calls : List Callback) :
    ∀ (buf : List Byte), buf.length % 4 = 0 → buf.length < 4 * bufferSize →
      (∀ c ∈ calls, c.framecount ≤ bufferSize ∧ c.framecount < 2 ^ 30
        ∧ 4 * c.framecount ≤ c.pOutputSample.length) →
      ∃ buf1, runCallbacks impl bufferSize buf calls = some buf1 := by
  induction calls with
  | nil => intro buf _ _ _; exact ⟨buf, rfl⟩
  | cons c rest ih =>
    intro buf h4 hlt hall
    obtain ⟨hf, hf30, hout⟩ := hall c (List.mem_cons_self c rest)
    have hn := byteCount_of_lt c.framecount hf30
    have hlen : 4 * c.framecount ≤ (refill impl bufferSize c.mixOut buf c.framecount).1.length := by
      rw [refill_length, hn]
      split_ifs <;> omega
    have hs : onSamples impl bufferSize c.mixOut c.spare c.pOutputSample buf c.framecount
        = some ((refill impl bufferSize c.mixOut buf c.framecount).1.take (4 * c.framecount)
                  ++ c.pOutputSample.drop (4 * c.framecount),
                (refill impl bufferSize c.mixOut buf c.framecount).1.drop (4 * c.framecount)) := by
      rw [onSamples, hn, deliver_of_le _ _ _ _ hlen hout]
    obtain ⟨h4a, hlta⟩ := onSamples_carry_inv impl bufferSize c.mixOut c.spare c.pOutputSample
      buf _ _ c.framecount h4 hlt hs
    obtain ⟨buf1, hb⟩ := ih _ h4a hlta (fun d hd => hall d (List.mem_cons_of_mem c hd))
    exact ⟨buf1, by simp only [runCallbacks, hs, hb]⟩

/-- C11.  Starting from the empty carry-over buffer with `bufferSize ≥ 1`,
after any sequence of playback callbacks that all complete, whatever frame
counts they request and whatever the mixer delivers, the carry-over length
is a multiple of 4 and strictly less than `4 * bufferSize`. -/
theorem carryover_bounded (impl : F64 → Int) (bufferSize : Nat) (calls : List Callback)
    (buf : List Byte) (hB : 1 ≤ bufferSize)
    (hrun : runCallbacks impl bufferSize [] calls = some buf) :
    buf.length % 4 = 0 ∧ buf.length < 4 * bufferSize :=
  runCallbacks_carry_inv impl bufferSize calls [] buf rfl
    (by simp only [List.length_nil]; omega) hrun

/-- C11, witness: `bufferSize = 2` and a silent mixer; three callbacks of one
frame each leave one frame (4 bytes) in the carry-over buffer. -/
theorem carryover_bounded_witness :
    runCallbacks (fun _ => 0) 2 []
        [⟨1, [9, 9, 9, 9], fun _ => (F64.fin 0, F64.fin 0), []⟩,
         ⟨1, [9, 9, 9, 9], fun _ => (F64.fin 0, F64.fin 0), []⟩,
         ⟨1, [9, 9, 9, 9], fun _ => (F64.fin 0, F64.fin 0), []⟩]
      = some [0, 0, 0, 0]
    ∧ ([0, 0, 0, 0] : List Byte).length % 4 = 0
    ∧ ([0, 0, 0, 0] : List Byte).length < 4 * 2 :=
  have hrun : runCallbacks (fun _ => 0) 2 []
        [⟨1, [9, 9, 9, 9], fun _ => (F64.fin 0, F64.fin 0), []⟩,
         ⟨1, [9, 9, 9, 9], fun _ => (F64.fin 0, F64.fin 0), []⟩,
         ⟨1, [9, 9, 9, 9], fun _ => (F64.fin 0, F64.fin 0), []⟩]
      = some [0, 0, 0, 0] := by decide!
  ⟨hrun, carryover_bounded (fun _ => 0) 2 _ _ (by decide) hrun⟩

end Beep
